import Mathlib

/-!
# Verification of the ATLAS financial-RAG core

Shallow embedding of the repository's hierarchical adaptive chunker
(`adaptive_chunker.py`), universal classifier (`universal_classifier.py`),
hybrid retrieval engine (`hybrid_retrieval.py`) and deduplication utilities
(`deduplication_utils.py`), together with proofs and refutations of the
spec's testable properties.

Python strings are modelled as `List Char`; Python floats (scores,
similarity ratios, thresholds) are modelled as `ℚ`; Python exceptions are
modelled with `Except Unit`.  External collaborators (the SQL indexes, the
embedding pipeline and Python's `difflib.SequenceMatcher.ratio`, none of
which are code of this repository) enter as explicit parameters.
-/

/-- Python strings, modelled as lists of characters. -/
abbrev Str := List Char

/-- The character class of Python's `\s` (ASCII range), also the set of
characters removed by Python's `str.strip()`. -/
def isPySpace (c : Char) : Bool :=
  c = ' ' || c = '\t' || c = '\n' || c = '\r' || c = '\x0b' || c = '\x0c'

/-- Python `str.lower()` (ASCII). -/
def pyLower (s : Str) : Str := s.map Char.toLower

/-- Python `str.lstrip()`. -/
def pyLstrip (s : Str) : Str := s.dropWhile isPySpace

/-- Python `str.rstrip()`. -/
def pyRstrip (s : Str) : Str := (s.reverse.dropWhile isPySpace).reverse

/-- Python `str.strip()`. -/
def pyStrip (s : Str) : Str := pyRstrip (pyLstrip s)

/-- `retrieval_types.RetrievalResult` (retrieval_types.py). -/
structure RetrievalResult where
  chunk_id : Str
  chunk_text : Str
  chunk_type : Str
  section_types : List Str
  note_number : Option Str
  page_numbers : List Int
  score : ℚ
  retrieval_tier : Str
deriving DecidableEq, Repr

/-! ## deduplication_utils.py

Python's `sorted(results, key=lambda x: x.score, reverse=True)` is a stable
descending sort; a stable sort is a uniquely determined function of the
input, so it is embedded as the (stable) insertion sort below. -/

/-- One insertion step of the stable descending-by-score sort. -/
def insertDesc (x : RetrievalResult) : List RetrievalResult → List RetrievalResult
  | [] => [x]
  | y :: ys => if y.score ≤ x.score then x :: y :: ys else y :: insertDesc x ys

/-- `sorted(results, key=lambda x: x.score, reverse=True)`. -/
def pySortDesc (l : List RetrievalResult) : List RetrievalResult :=
  l.foldr insertDesc []

/-- The text normalisation `text.lower().strip()` applied before computing a
similarity ratio in `deduplicate_by_similarity`. -/
def dedupNorm (s : Str) : Str := pyStrip (pyLower s)

/-- The inner loop of `deduplicate_by_similarity` (deduplication_utils.py,
lines 41-63): walk the sorted results, drop a candidate whose normalised
text has ratio ≥ threshold against any already-kept text, and stop once
`max_chunks` results are kept.  `ratio` is the external
`difflib.SequenceMatcher(None, ·, ·).ratio()` oracle. -/
def dedupSimLoop (ratio : Str → Str → ℚ) (thr : ℚ) (maxc : Nat)
    (seen : List Str) (kept : Nat) : List RetrievalResult → List RetrievalResult
  | [] => []
  | r :: rs =>
    if seen.any (fun s => thr ≤ ratio (dedupNorm r.chunk_text) (dedupNorm s)) then
      dedupSimLoop ratio thr maxc seen kept rs
    else
      r :: (if maxc ≤ kept + 1 then []
            else dedupSimLoop ratio thr maxc (seen ++ [r.chunk_text]) (kept + 1) rs)

/-- `deduplicate_by_similarity` (deduplication_utils.py, lines 11-65). -/
def deduplicate_by_similarity (ratio : Str → Str → ℚ)
    (results : List RetrievalResult) (similarity_threshold : ℚ)
    (max_chunks : Nat) : List RetrievalResult :=
  if results = [] then []
  else dedupSimLoop ratio similarity_threshold max_chunks [] 0 (pySortDesc results)

/-- `page_counts[primary_page] += 1` on the `page_counts` dict, which is
modelled as a total function defaulting to 0 (the dict is initialised to 0
on first access). -/
def bumpCount (counts : Int → Nat) (p : Int) : Int → Nat :=
  fun q => if q = p then counts p + 1 else counts q

/-- The loop of `filter_by_page_diversity`. -/
def pageDivLoop (max_per_page : Nat) (counts : Int → Nat) :
    List RetrievalResult → List RetrievalResult
  | [] => []
  | r :: rs =>
    match r.page_numbers.head? with
    | none => r :: pageDivLoop max_per_page counts rs
    | some p =>
      if counts p < max_per_page then
        r :: pageDivLoop max_per_page (bumpCount counts p) rs
      else
        pageDivLoop max_per_page counts rs

/-- `filter_by_page_diversity` (deduplication_utils.py, lines 68-109). -/
def filter_by_page_diversity (max_per_page : Nat)
    (results : List RetrievalResult) : List RetrievalResult :=
  if results = [] then [] else pageDivLoop max_per_page (fun _ => 0) results

/-- `smart_deduplicate` (deduplication_utils.py, lines 112-149). -/
def smart_deduplicate (ratio : Str → Str → ℚ) (results : List RetrievalResult)
    (similarity_threshold : ℚ) (max_chunks max_per_page : Nat) :
    List RetrievalResult :=
  if results = [] then []
  else
    (filter_by_page_diversity max_per_page
      (deduplicate_by_similarity ratio results similarity_threshold
        (max_chunks * 2))).take max_chunks

/-- Number of results in `l` whose primary page (`page_numbers[0]`) is `p`. -/
def countPrimary (l : List RetrievalResult) (p : Int) : Nat :=
  l.countP (fun r => r.page_numbers.head? == some p)

/-- Descending order by score, as a pairwise relation. -/
def SortedDesc (l : List RetrievalResult) : Prop :=
  l.Pairwise (fun a b => b.score ≤ a.score)

/-- The pairwise-dissimilarity relation established by the similarity pass:
the later result is dissimilar to the earlier one, in the orientation the
code computes the ratio. -/
def DissimR (ratio : Str → Str → ℚ) (thr : ℚ) (a b : RetrievalResult) : Prop :=
  ratio (dedupNorm b.chunk_text) (dedupNorm a.chunk_text) < thr


/-! ### Lemmas about the stable sort -/

theorem mem_insertDesc {z x : RetrievalResult} {l : List RetrievalResult} :
    z ∈ insertDesc x l ↔ z = x ∨ z ∈ l := by
  induction l with
  | nil => simp [insertDesc]
  | cons y ys ih =>
    simp only [insertDesc]
    split
    · simp
    · simp only [List.mem_cons, ih]
      tauto

theorem insertDesc_perm (x : RetrievalResult) (l : List RetrievalResult) :
    List.Perm (insertDesc x l) (x :: l) := by
  induction l with
  | nil => exact List.Perm.refl _
  | cons y ys ih =>
    simp only [insertDesc]
    split
    · exact List.Perm.refl _
    · exact (ih.cons y).trans (List.Perm.swap x y ys)

theorem insertDesc_sorted {x : RetrievalResult} {l : List RetrievalResult}
    (h : SortedDesc l) : SortedDesc (insertDesc x l) := by
  induction l with
  | nil => simp [insertDesc, SortedDesc]
  | cons y ys ih =>
    rcases (List.pairwise_cons.mp h) with ⟨hy, hys⟩
    simp only [insertDesc]
    split
    · rename_i hle
      refine List.pairwise_cons.mpr ⟨?_, h⟩
      intro b hb
      rcases List.mem_cons.mp hb with rfl | hb
      · exact hle
      · exact le_trans (hy b hb) hle
    · rename_i hlt
      refine List.pairwise_cons.mpr ⟨?_, ih hys⟩
      intro b hb
      rcases mem_insertDesc.mp hb with rfl | hb
      · exact le_of_not_le hlt
      · exact hy b hb

theorem pySortDesc_perm (l : List RetrievalResult) : List.Perm (pySortDesc l) l := by
  induction l with
  | nil => exact List.Perm.refl _
  | cons x xs ih =>
    exact (insertDesc_perm x (pySortDesc xs)).trans (ih.cons x)

theorem pySortDesc_sorted (l : List RetrievalResult) : SortedDesc (pySortDesc l) := by
  induction l with
  | nil => exact List.Pairwise.nil
  | cons x xs ih => exact insertDesc_sorted ih

theorem pySortDesc_eq_self {l : List RetrievalResult} (h : SortedDesc l) :
    pySortDesc l = l := by
  induction l with
  | nil => rfl
  | cons x xs ih =>
    rcases (List.pairwise_cons.mp h) with ⟨hx, hxs⟩
    show insertDesc x (pySortDesc xs) = x :: xs
    rw [ih hxs]
    cases xs with
    | nil => rfl
    | cons y ys => simp [insertDesc, hx y (List.mem_cons_self y ys)]

/-! ### Lemmas about the similarity pass -/

theorem dedupSimLoop_sublist (ratio : Str → Str → ℚ) (thr : ℚ) (maxc : Nat) :
    ∀ (l : List RetrievalResult) (seen : List Str) (kept : Nat),
    List.Sublist (dedupSimLoop ratio thr maxc seen kept l) l := by
  intro l
  induction l with
  | nil => intro seen kept; simp [dedupSimLoop]
  | cons r rs ih =>
    intro seen kept
    simp only [dedupSimLoop]
    split
    · exact (ih seen kept).cons r
    · split
      · exact (List.nil_sublist rs).cons₂ r
      · exact (ih _ _).cons₂ r

theorem dedupSimLoop_spec (ratio : Str → Str → ℚ) (thr : ℚ) (maxc : Nat) :
    ∀ (l : List RetrievalResult) (seen : List Str) (kept : Nat),
    (dedupSimLoop ratio thr maxc seen kept l).Pairwise (DissimR ratio thr) ∧
    ∀ r ∈ dedupSimLoop ratio thr maxc seen kept l, ∀ s ∈ seen,
      ratio (dedupNorm r.chunk_text) (dedupNorm s) < thr := by
  intro l
  induction l with
  | nil => intro seen kept; simp [dedupSimLoop]
  | cons r rs ih =>
    intro seen kept
    simp only [dedupSimLoop]
    split
    · exact ih seen kept
    · rename_i hany
      have hseen : ∀ s ∈ seen, ratio (dedupNorm r.chunk_text) (dedupNorm s) < thr := by
        intro s hs
        by_contra hc
        exact hany (List.any_eq_true.mpr ⟨s, hs, decide_eq_true (le_of_not_lt hc)⟩)
      split
      · constructor
        · simp
        · intro x hx s hs
          rcases List.mem_singleton.mp hx with rfl
          exact hseen s hs
      · obtain ⟨ihp, ihs⟩ := ih (seen ++ [r.chunk_text]) (kept + 1)
        constructor
        · refine List.pairwise_cons.mpr ⟨?_, ihp⟩
          intro b hb
          exact ihs b hb r.chunk_text (by simp)
        · intro x hx s hs
          rcases List.mem_cons.mp hx with rfl | hx
          · exact hseen s hs
          · exact ihs x hx s (by simp [hs])

theorem dedupSimLoop_eq_self (ratio : Str → Str → ℚ) (thr : ℚ) (maxc : Nat) :
    ∀ (l : List RetrievalResult) (seen : List Str) (kept : Nat),
    l.Pairwise (DissimR ratio thr) →
    (∀ y ∈ l, ∀ s ∈ seen, ratio (dedupNorm y.chunk_text) (dedupNorm s) < thr) →
    kept + l.length ≤ maxc →
    dedupSimLoop ratio thr maxc seen kept l = l := by
  intro l
  induction l with
  | nil => intro seen kept _ _ _; rfl
  | cons r rs ih =>
    intro seen kept hpair hseen hlen
    rcases List.pairwise_cons.mp hpair with ⟨hr, hrs⟩
    simp only [dedupSimLoop]
    have hany : ¬ (seen.any (fun s => decide (thr ≤ ratio (dedupNorm r.chunk_text) (dedupNorm s))) = true) := by
      intro h
      rcases List.any_eq_true.mp h with ⟨s, hs, hd⟩
      exact absurd (hseen r (List.mem_cons_self r rs) s hs) (not_lt.mpr (of_decide_eq_true hd))
    rw [if_neg hany]
    split
    · rename_i hstop
      have hz : rs.length = 0 := by
        simp only [List.length_cons] at hlen
        omega
      rw [List.length_eq_zero.mp hz]
    · congr 1
      refine ih (seen ++ [r.chunk_text]) (kept + 1) hrs ?_ ?_
      · intro y hy s hs
        rcases List.mem_append.mp hs with hs | hs
        · exact hseen y (List.mem_cons_of_mem r hy) s hs
        · rcases List.mem_singleton.mp hs with rfl
          exact hr y hy
      · simp only [List.length_cons] at hlen
        omega
/-! ### Lemmas about the page-diversity pass -/

theorem bumpCount_self (counts : Int → Nat) (p : Int) :
    bumpCount counts p p = counts p + 1 := by simp [bumpCount]

theorem bumpCount_other (counts : Int → Nat) {p q : Int} (h : q ≠ p) :
    bumpCount counts p q = counts q := by simp [bumpCount, h]

theorem pageDivLoop_sublist (mpp : Nat) :
    ∀ (l : List RetrievalResult) (counts : Int → Nat),
    List.Sublist (pageDivLoop mpp counts l) l := by
  intro l
  induction l with
  | nil => intro counts; simp [pageDivLoop]
  | cons r rs ih =>
    intro counts
    simp only [pageDivLoop]
    split
    · exact (ih counts).cons₂ r
    · split
      · exact (ih _).cons₂ r
      · exact (ih counts).cons r

theorem pageDivLoop_count (mpp : Nat) :
    ∀ (l : List RetrievalResult) (counts : Int → Nat) (p : Int),
    counts p ≤ mpp →
    counts p + countPrimary (pageDivLoop mpp counts l) p ≤ mpp := by
  intro l
  induction l with
  | nil => intro counts p h; simpa [pageDivLoop, countPrimary]
  | cons r rs ih =>
    intro counts p h
    simp only [pageDivLoop]
    split
    · rename_i hh
      have hrec := ih counts p h
      have hc : countPrimary (r :: pageDivLoop mpp counts rs) p
          = countPrimary (pageDivLoop mpp counts rs) p := by
        simp [countPrimary, List.countP_cons, hh]
      rw [hc]
      exact hrec
    · rename_i q hh
      by_cases hq : counts q < mpp
      · rw [if_pos hq]
        by_cases hpq : p = q
        · subst hpq
          have h2 := ih (bumpCount counts p) p (by rw [bumpCount_self]; exact hq)
          rw [bumpCount_self] at h2
          have hc : countPrimary (r :: pageDivLoop mpp (bumpCount counts p) rs) p
              = countPrimary (pageDivLoop mpp (bumpCount counts p) rs) p + 1 := by
            simp [countPrimary, List.countP_cons, hh]
          rw [hc]
          omega
        · have hqp : ¬ (q = p) := fun hc => hpq hc.symm
          have h2 := ih (bumpCount counts q) p (by rw [bumpCount_other counts hpq]; exact h)
          rw [bumpCount_other counts hpq] at h2
          have hc : countPrimary (r :: pageDivLoop mpp (bumpCount counts q) rs) p
              = countPrimary (pageDivLoop mpp (bumpCount counts q) rs) p := by
            simp [countPrimary, List.countP_cons, hh, hqp]
          rw [hc]
          exact h2
      · rw [if_neg hq]
        exact ih counts p h

theorem pageDivLoop_eq_self (mpp : Nat) :
    ∀ (l : List RetrievalResult) (counts : Int → Nat),
    (∀ p, counts p + countPrimary l p ≤ mpp) →
    pageDivLoop mpp counts l = l := by
  intro l
  induction l with
  | nil => intro counts _; rfl
  | cons r rs ih =>
    intro counts h
    simp only [pageDivLoop]
    split
    · rename_i hh
      congr 1
      refine ih counts (fun p => ?_)
      have hp := h p
      have hc : countPrimary (r :: rs) p = countPrimary rs p := by
        simp [countPrimary, List.countP_cons, hh]
      rw [hc] at hp
      exact hp
    · rename_i q hh
      have hcq : countPrimary (r :: rs) q = countPrimary rs q + 1 := by
        simp [countPrimary, List.countP_cons, hh]
      have hq : counts q < mpp := by
        have hqq := h q
        rw [hcq] at hqq
        omega
      rw [if_pos hq]
      congr 1
      refine ih _ (fun p => ?_)
      by_cases hpq : p = q
      · subst hpq
        rw [bumpCount_self]
        have hp := h p
        rw [hcq] at hp
        omega
      · have hqp : ¬ (q = p) := fun hc => hpq hc.symm
        rw [bumpCount_other counts hpq]
        have hp := h p
        have hc : countPrimary (r :: rs) p = countPrimary rs p := by
          simp [countPrimary, List.countP_cons, hh, hqp]
        rw [hc] at hp
        exact hp

theorem pageDivLoop_keeps_unpaged (mpp : Nat) :
    ∀ (l : List RetrievalResult) (counts : Int → Nat) (r : RetrievalResult),
    r ∈ l → r.page_numbers.head? = none → r ∈ pageDivLoop mpp counts l := by
  intro l
  induction l with
  | nil => intro counts r h; simp at h
  | cons x xs ih =>
    intro counts r hr hnone
    simp only [pageDivLoop]
    rcases List.mem_cons.mp hr with rfl | hr
    · rw [hnone]
      exact List.mem_cons_self _ _
    · split
      · exact List.mem_cons_of_mem x (ih counts r hr hnone)
      · split
        · exact List.mem_cons_of_mem x (ih _ r hr hnone)
        · exact ih counts r hr hnone

/-! ### Structure of the full deduplication stage -/

theorem deduplicate_by_similarity_sublist (ratio : Str → Str → ℚ)
    (l : List RetrievalResult) (thr : ℚ) (maxc : Nat) :
    List.Sublist (deduplicate_by_similarity ratio l thr maxc) (pySortDesc l) := by
  unfold deduplicate_by_similarity
  split
  · exact List.nil_sublist _
  · exact dedupSimLoop_sublist ratio thr maxc (pySortDesc l) [] 0

theorem deduplicate_by_similarity_pairwise (ratio : Str → Str → ℚ)
    (l : List RetrievalResult) (thr : ℚ) (maxc : Nat) :
    (deduplicate_by_similarity ratio l thr maxc).Pairwise (DissimR ratio thr) := by
  unfold deduplicate_by_similarity
  split
  · exact List.Pairwise.nil
  · exact (dedupSimLoop_spec ratio thr maxc (pySortDesc l) [] 0).1

theorem filter_by_page_diversity_sublist (mpp : Nat) (l : List RetrievalResult) :
    List.Sublist (filter_by_page_diversity mpp l) l := by
  unfold filter_by_page_diversity
  split
  · simp_all
  · exact pageDivLoop_sublist mpp l (fun _ => 0)

theorem filter_by_page_diversity_count (mpp : Nat) (l : List RetrievalResult)
    (p : Int) : countPrimary (filter_by_page_diversity mpp l) p ≤ mpp := by
  unfold filter_by_page_diversity
  split
  · simp [countPrimary]
  · have h := pageDivLoop_count mpp l (fun _ => 0) p (Nat.zero_le mpp)
    simpa using h

theorem smart_deduplicate_sublist_sorted (ratio : Str → Str → ℚ)
    (l : List RetrievalResult) (thr : ℚ) (m p : Nat) :
    List.Sublist (smart_deduplicate ratio l thr m p) (pySortDesc l) := by
  unfold smart_deduplicate
  split
  · exact List.nil_sublist _
  · exact ((List.take_sublist _ _).trans
      (filter_by_page_diversity_sublist p _)).trans
      (deduplicate_by_similarity_sublist ratio l thr (m * 2))

theorem smart_deduplicate_sorted (ratio : Str → Str → ℚ)
    (l : List RetrievalResult) (thr : ℚ) (m p : Nat) :
    SortedDesc (smart_deduplicate ratio l thr m p) :=
  (pySortDesc_sorted l).sublist (smart_deduplicate_sublist_sorted ratio l thr m p)

theorem smart_deduplicate_pairwise (ratio : Str → Str → ℚ)
    (l : List RetrievalResult) (thr : ℚ) (m p : Nat) :
    (smart_deduplicate ratio l thr m p).Pairwise (DissimR ratio thr) := by
  unfold smart_deduplicate
  split
  · exact List.Pairwise.nil
  · exact (deduplicate_by_similarity_pairwise ratio l thr (m * 2)).sublist
      ((List.take_sublist _ _).trans (filter_by_page_diversity_sublist p _))

theorem smart_deduplicate_length (ratio : Str → Str → ℚ)
    (l : List RetrievalResult) (thr : ℚ) (m p : Nat) :
    (smart_deduplicate ratio l thr m p).length ≤ m := by
  unfold smart_deduplicate
  split
  · simp
  · exact List.length_take_le _ _

theorem smart_deduplicate_count (ratio : Str → Str → ℚ)
    (l : List RetrievalResult) (thr : ℚ) (m p : Nat) (pg : Int) :
    countPrimary (smart_deduplicate ratio l thr m p) pg ≤ p := by
  unfold smart_deduplicate
  split
  · simp [countPrimary]
  · calc countPrimary ((filter_by_page_diversity p
          (deduplicate_by_similarity ratio l thr (m * 2))).take m) pg
        ≤ countPrimary (filter_by_page_diversity p
          (deduplicate_by_similarity ratio l thr (m * 2))) pg :=
          (List.take_sublist _ _).countP_le _
      _ ≤ p := filter_by_page_diversity_count p _ pg

theorem deduplicate_by_similarity_eq_self (ratio : Str → Str → ℚ)
    {l : List RetrievalResult} {thr : ℚ} {maxc : Nat}
    (hsort : SortedDesc l) (hpair : l.Pairwise (DissimR ratio thr))
    (hlen : l.length ≤ maxc) :
    deduplicate_by_similarity ratio l thr maxc = l := by
  unfold deduplicate_by_similarity
  split
  · simp_all
  · rw [pySortDesc_eq_self hsort]
    exact dedupSimLoop_eq_self ratio thr maxc l [] 0 hpair (by simp) (by omega)

theorem filter_by_page_diversity_eq_self {mpp : Nat} {l : List RetrievalResult}
    (h : ∀ p, countPrimary l p ≤ mpp) :
    filter_by_page_diversity mpp l = l := by
  unfold filter_by_page_diversity
  split
  · simp_all
  · exact pageDivLoop_eq_self mpp l (fun _ => 0) (fun p => by simpa using h p)

/-- **C6.**  `smart_deduplicate` is idempotent: applied to its own output with
the same similarity oracle, threshold, `max_chunks` and `max_per_page`, it
returns that output unchanged. -/
theorem claim_C6_smart_deduplicate_idempotent (ratio : Str → Str → ℚ)
    (results : List RetrievalResult) (similarity_threshold : ℚ)
    (max_chunks max_per_page : Nat) :
    smart_deduplicate ratio
      (smart_deduplicate ratio results similarity_threshold max_chunks max_per_page)
      similarity_threshold max_chunks max_per_page
    = smart_deduplicate ratio results similarity_threshold max_chunks max_per_page := by
  by_cases hO : smart_deduplicate ratio results similarity_threshold max_chunks max_per_page = []
  · rw [hO]
    rfl
  · conv_lhs => rw [smart_deduplicate]
    rw [if_neg hO]
    rw [deduplicate_by_similarity_eq_self ratio
      (smart_deduplicate_sorted ratio results similarity_threshold max_chunks max_per_page)
      (smart_deduplicate_pairwise ratio results similarity_threshold max_chunks max_per_page)
      (le_trans (smart_deduplicate_length ratio results similarity_threshold max_chunks max_per_page)
        (by omega))]
    rw [filter_by_page_diversity_eq_self
      (fun p => smart_deduplicate_count ratio results similarity_threshold max_chunks max_per_page p)]
    exact List.take_of_length_le
      (smart_deduplicate_length ratio results similarity_threshold max_chunks max_per_page)

/-- **C7.**  No primary page number occurs more than `max_per_page` times in
the output of the deduplication stage, and a result with an empty
`page_numbers` list is exempt from the cap: the diversity pass always keeps
it. -/
theorem claim_C7_page_diversity_cap (ratio : Str → Str → ℚ)
    (results : List RetrievalResult) (similarity_threshold : ℚ)
    (max_chunks max_per_page : Nat) (pg : Int) :
    countPrimary
      (smart_deduplicate ratio results similarity_threshold max_chunks max_per_page)
      pg ≤ max_per_page ∧
    ∀ r ∈ results, r.page_numbers = [] →
      r ∈ filter_by_page_diversity max_per_page results := by
  constructor
  · exact smart_deduplicate_count ratio results similarity_threshold
      max_chunks max_per_page pg
  · intro r hr hempty
    unfold filter_by_page_diversity
    split
    · simp_all
    · exact pageDivLoop_keeps_unpaged max_per_page results (fun _ => 0) r hr
        (by rw [hempty]; rfl)

/-- Concrete instance for C7: a result with no page numbers is kept by the
diversity pass. -/
theorem claim_C7_page_diversity_cap_witness :
    countPrimary
      (smart_deduplicate (fun _ _ => 0)
        [RetrievalResult.mk [] [] [] [] none [] 1 []] (3/4) 5 2) 7 ≤ 2 ∧
    RetrievalResult.mk [] [] [] [] none [] 1 [] ∈
      filter_by_page_diversity 2 [RetrievalResult.mk [] [] [] [] none [] 1 []] := by
  have h := claim_C7_page_diversity_cap (fun _ _ => 0)
    [RetrievalResult.mk [] [] [] [] none [] 1 []] (3/4) 5 2 7
  exact ⟨h.1, h.2 _ (List.mem_singleton.mpr rfl) rfl⟩

/-- **C10.**  `smart_deduplicate` returns a subsequence of the stable
descending re-sort of its input (so every output element is an input
element, with multiplicity, in non-increasing score order), and it never
modifies the elements themselves (they are reused, as the sublist relation
states). -/
theorem claim_C10_smart_deduplicate_subsequence (ratio : Str → Str → ℚ)
    (results : List RetrievalResult) (similarity_threshold : ℚ)
    (max_chunks max_per_page : Nat) :
    List.Sublist
      (smart_deduplicate ratio results similarity_threshold max_chunks max_per_page)
      (pySortDesc results) ∧
    List.Perm (pySortDesc results) results ∧
    SortedDesc
      (smart_deduplicate ratio results similarity_threshold max_chunks max_per_page) :=
  ⟨smart_deduplicate_sublist_sorted ratio results similarity_threshold max_chunks max_per_page,
   pySortDesc_perm results,
   smart_deduplicate_sorted ratio results similarity_threshold max_chunks max_per_page⟩

/-! ## hybrid_retrieval.py

The engine's two index lookups are SQL queries against external backends;
they are modelled as `Except Unit (List DBRow)` outcomes (`Except.error ()`
= the query raised).  The embedding pipeline call `embed_single` is
modelled by its success flag (`_vector_search` only tests
`embedding_result.success`). -/

/-- One row returned by either SQL query, with the columns the engine
reads (`similarity` for the vector query and `rank` for the keyword query
are both `scoreVal`). -/
structure DBRow where
  chunk_id : Str
  chunk_text : Str
  chunk_type : Str
  section_types : List Str
  note_number : Option Str
  page_numbers : List Int
  scoreVal : ℚ
deriving DecidableEq, Repr

/-- Tier label `'vector'`. -/
def vectorTier : Str := "vector".toList

/-- Tier label `'keyword'`. -/
def keywordTier : Str := "keyword".toList

/-- Tier label `'re-ranked'`. -/
def rerankedTier : Str := "re-ranked".toList

/-- Conversion of a fetched row into a `RetrievalResult` with the given
tier label (hybrid_retrieval.py, lines 220-231 and 308-320). -/
def rowToResult (tier : Str) (row : DBRow) : RetrievalResult :=
  { chunk_id := row.chunk_id
    chunk_text := row.chunk_text
    chunk_type := row.chunk_type
    section_types := row.section_types
    note_number := row.note_number
    page_numbers := row.page_numbers
    score := row.scoreVal
    retrieval_tier := tier }

/-- `_vector_search` (hybrid_retrieval.py, lines 145-233): an embedding
failure returns `[]`, but the SQL query itself is *not* wrapped in
`try/except`, so an exception from the vector index propagates. -/
def vector_search (emb_success : Bool) (vec_index : Except Unit (List DBRow)) :
    Except Unit (List RetrievalResult) :=
  if emb_success = false then Except.ok []
  else do
    let rows ← vec_index
    pure (rows.map (rowToResult vectorTier))

/-- `_keyword_search` (hybrid_retrieval.py, lines 235-327): the whole query
is wrapped in `try/except Exception`, returning `[]` on failure. -/
def keyword_search (kw_index : Except Unit (List DBRow)) : List RetrievalResult :=
  match kw_index with
  | Except.error _ => []
  | Except.ok rows => rows.map (rowToResult keywordTier)

/-- The `seen_chunk_ids` loop of `_merge_results`. -/
def mergeLoop (seen : List Str) : List RetrievalResult → List RetrievalResult
  | [] => []
  | r :: rs =>
    if seen.contains r.chunk_id then mergeLoop seen rs
    else r :: mergeLoop (r.chunk_id :: seen) rs

/-- `_merge_results` (hybrid_retrieval.py, lines 329-359): vector results
first, then keyword results, dropping already-seen chunk ids. -/
def merge_results (vector_results keyword_results : List RetrievalResult) :
    List RetrievalResult :=
  mergeLoop [] (vector_results ++ keyword_results)

/-- The query-intent hint list built by `_rerank_by_classification`
(hybrid_retrieval.py, lines 380-404); `section_filters` extends the hints
only when it is a non-empty list (Python truthiness of `if section_filters:`). -/
def query_section_hints (query : Str) (section_filters : Option (List Str)) :
    List Str :=
  let ql := pyLower query
  let h := (if List.IsInfix ("fair value".toList) ql then [("fair_value".toList)] else [])
    ++ (if List.IsInfix ("investment propert".toList) ql then [("investment_property".toList)] else [])
    ++ (if List.IsInfix ("balance sheet".toList) ql then [("balance_sheet".toList)] else [])
    ++ (if List.IsInfix ("income statement".toList) ql ∨ List.IsInfix ("profit".toList) ql
        then [("income_statement".toList)] else [])
    ++ (if List.IsInfix ("cash flow".toList) ql then [("cash_flow".toList)] else [])
    ++ (if List.IsInfix ("note".toList) ql then [("notes".toList)] else [])
    ++ (if List.IsInfix ("borrowing".toList) ql ∨ List.IsInfix ("debt".toList) ql
        then [("borrowings".toList)] else [])
    ++ (if List.IsInfix ("equity".toList) ql then [("equity".toList)] else [])
  match section_filters with
  | none => h
  | some fs => if fs = [] then h else h ++ fs

/-- `section_match_count`: how many of the result's `section_types` occur in
the hint list (counted with multiplicity over `section_types`). -/
def section_match_count (hints : List Str) (r : RetrievalResult) : Nat :=
  r.section_types.countP (fun st => hints.contains st)

/-- The per-result mutation of `_rerank_by_classification` (lines 407-418):
boost the score by 20% per matching section and relabel the tier when at
least one boost applied. -/
def boostResult (hints : List Str) (r : RetrievalResult) : RetrievalResult :=
  let c := section_match_count hints r
  if 0 < c then
    { r with score := r.score * (1 + (c : ℚ) * (2/10)), retrieval_tier := rerankedTier }
  else r

/-- `_rerank_by_classification` (hybrid_retrieval.py, lines 361-423):
mutate every result in place, then `results.sort(key=..., reverse=True)`
(stable). -/
def rerank_by_classification (results : List RetrievalResult) (query : Str)
    (section_filters : Option (List Str)) : List RetrievalResult :=
  pySortDesc (results.map (boostResult (query_section_hints query section_filters)))

/-- `retrieve` (hybrid_retrieval.py, lines 85-143).  `company_id`,
`statement_type`, `note_number` and the `top_k` multipliers only
parameterise the SQL sent to the external indexes, so they are absorbed
into the two index outcomes; `min_vector_results` is never read by the
body.  `max_per_page` is the hard-coded `2`. -/
def retrieve (emb_success : Bool) (vec_index kw_index : Except Unit (List DBRow))
    (ratio : Str → Str → ℚ) (query : Str) (section_filters : Option (List Str))
    (top_k : Nat) (enable_deduplication : Bool) (similarity_threshold : ℚ) :
    Except Unit (List RetrievalResult) := do
  let vector_results ← vector_search emb_success vec_index
  let keyword_results := keyword_search kw_index
  let combined := merge_results vector_results keyword_results
  let reranked := rerank_by_classification combined query section_filters
  if enable_deduplication then
    pure (smart_deduplicate ratio reranked similarity_threshold top_k 2)
  else
    pure (reranked.take top_k)

/-! ### C8: the rerank stage -/

/-- **C8.**  The rerank stage is the stable descending re-sort of the
per-result boost map; the boost multiplies the score by exactly
`1 + 0.2 × matchCount` where `matchCount` counts the result's
`section_types` occurring in the query-derived hint list, and relabels the
tier to `'re-ranked'` exactly when `matchCount ≥ 1`. -/
theorem claim_C8_rerank_spec (results : List RetrievalResult) (query : Str)
    (section_filters : Option (List Str)) :
    List.Perm (rerank_by_classification results query section_filters)
      (results.map (boostResult (query_section_hints query section_filters))) ∧
    SortedDesc (rerank_by_classification results query section_filters) ∧
    ∀ r : RetrievalResult,
      (boostResult (query_section_hints query section_filters) r).score
        = r.score *
          (1 + (section_match_count (query_section_hints query section_filters) r : ℚ)
            * (1/5)) ∧
      (boostResult (query_section_hints query section_filters) r).retrieval_tier
        = if 1 ≤ section_match_count (query_section_hints query section_filters) r
          then rerankedTier else r.retrieval_tier := by
  refine ⟨pySortDesc_perm _, pySortDesc_sorted _, fun r => ?_⟩
  unfold boostResult
  by_cases hc : 0 < section_match_count (query_section_hints query section_filters) r
  · rw [if_pos hc]
    constructor
    · show r.score * (1 + _ * (2/10)) = _
      norm_num
    · show rerankedTier = _
      rw [if_pos (Nat.succ_le_of_lt hc)]
  · rw [if_neg hc]
    have h0 : section_match_count (query_section_hints query section_filters) r = 0 := by
      omega
    rw [h0]
    constructor
    · norm_num
    · rfl

/-! ### C2: failure semantics of `retrieve` -/

/-- Tiers 3-4 of the pipeline (rerank, then optional deduplication or
truncation), as applied by `retrieve` to the merged candidate list. -/
def postProcess (ratio : Str → Str → ℚ) (combined : List RetrievalResult)
    (query : Str) (section_filters : Option (List Str)) (top_k : Nat)
    (enable_deduplication : Bool) (similarity_threshold : ℚ) :
    List RetrievalResult :=
  let reranked := rerank_by_classification combined query section_filters
  if enable_deduplication then
    smart_deduplicate ratio reranked similarity_threshold top_k 2
  else reranked.take top_k

theorem mergeLoop_eq_self :
    ∀ (l : List RetrievalResult) (seen : List Str),
    (∀ r ∈ l, r.chunk_id ∉ seen) →
    (l.map (fun r => r.chunk_id)).Nodup →
    mergeLoop seen l = l := by
  intro l
  induction l with
  | nil => intro seen _ _; rfl
  | cons r rs ih =>
    intro seen hseen hnodup
    have hrs : ¬ (seen.contains r.chunk_id = true) := by
      rw [List.elem_iff]
      exact hseen r (List.mem_cons_self r rs)
    simp only [mergeLoop, if_neg hrs]
    congr 1
    rw [List.map_cons] at hnodup
    rcases List.nodup_cons.mp hnodup with ⟨hhead, htail⟩
    refine ih (r.chunk_id :: seen) ?_ htail
    intro y hy hmem
    rcases List.mem_cons.mp hmem with heq | hmem
    · exact hhead (heq ▸ List.mem_map_of_mem (fun x => x.chunk_id) hy)
    · exact hseen y (List.mem_cons_of_mem r hy) hmem

/-- **C2 (amended).**  Failure semantics of `retrieve` as implemented: an
embedding failure degrades to the keyword tier; a raising keyword index
degrades to the vector tier; embedding failure together with a raising
keyword index yields `Except.ok []`; and when keyword results have distinct
chunk ids the keyword tier passes through the merge unchanged.  (An
exception from the vector index query itself is *not* caught — see the
counterexample.) -/
theorem claim_C2_amended_degradation (vec kw : Except Unit (List DBRow))
    (rows : List DBRow) (ks : List RetrievalResult) (ratio : Str → Str → ℚ)
    (query : Str) (section_filters : Option (List Str)) (top_k : Nat)
    (enable_deduplication : Bool) (similarity_threshold : ℚ) :
    retrieve false vec kw ratio query section_filters top_k
        enable_deduplication similarity_threshold
      = Except.ok (postProcess ratio (merge_results [] (keyword_search kw))
          query section_filters top_k enable_deduplication similarity_threshold) ∧
    retrieve true (Except.ok rows) (Except.error ()) ratio query section_filters
        top_k enable_deduplication similarity_threshold
      = Except.ok (postProcess ratio
          (merge_results (rows.map (rowToResult vectorTier)) [])
          query section_filters top_k enable_deduplication similarity_threshold) ∧
    retrieve false vec (Except.error ()) ratio query section_filters top_k
        enable_deduplication similarity_threshold
      = Except.ok [] ∧
    ((ks.map (fun r => r.chunk_id)).Nodup → merge_results [] ks = ks) := by
  refine ⟨?_, ?_, ?_, ?_⟩
  · cases enable_deduplication <;> rfl
  · cases enable_deduplication <;> rfl
  · cases enable_deduplication
    · rw [show retrieve false vec (Except.error ()) ratio query section_filters
          top_k false similarity_threshold
          = Except.ok (List.take top_k ([] : List RetrievalResult)) from rfl]
      rw [List.take_nil]
    · rfl
  · intro h
    exact mergeLoop_eq_self ks [] (by simp) h

/-- Counterexample to **C2** as stated: with a successfully embedded query,
a vector index that raises, and a keyword index returning 3 results,
`retrieve` propagates the exception instead of returning the keyword-tier
results (the SQL query of `_vector_search` is not wrapped in
`try/except`, unlike `_keyword_search`). -/
theorem claim_C2_counterexample :
    retrieve true (Except.error ()) (Except.ok
        [DBRow.mk ("c1".toList) ("t1".toList) ("paragraph".toList) [] none [1] 1,
         DBRow.mk ("c2".toList) ("t2".toList) ("paragraph".toList) [] none [2] 1,
         DBRow.mk ("c3".toList) ("t3".toList) ("paragraph".toList) [] none [3] 1])
      (fun _ _ => 0) [] none 10 true (3/4)
      = Except.error () ∧
    (keyword_search (Except.ok
        [DBRow.mk ("c1".toList) ("t1".toList) ("paragraph".toList) [] none [1] 1,
         DBRow.mk ("c2".toList) ("t2".toList) ("paragraph".toList) [] none [2] 1,
         DBRow.mk ("c3".toList) ("t3".toList) ("paragraph".toList) [] none [3] 1])).length
      = 3 := by
  exact ⟨rfl, rfl⟩

/-- Concrete instance for the amended C2: both backends down yields an empty
result list, and a singleton keyword tier passes through the merge. -/
theorem claim_C2_amended_degradation_witness :
    retrieve false (Except.error ()) (Except.error ()) (fun _ _ => 0) [] none 5
        true (3/4) = Except.ok [] ∧
    merge_results [] [RetrievalResult.mk ("a".toList) [] [] [] none [] 1 keywordTier]
      = [RetrievalResult.mk ("a".toList) [] [] [] none [] 1 keywordTier] := by
  have h := claim_C2_amended_degradation (Except.error ()) (Except.error ()) []
    [RetrievalResult.mk ("a".toList) [] [] [] none [] 1 keywordTier]
    (fun _ _ => 0) [] none 5 true (3/4)
  exact ⟨h.2.2.1, h.2.2.2 (by simp)⟩

/-! ## adaptive_chunker.py: data model and element-level chunking -/

/-- `adaptive_chunker.Chunk` (adaptive_chunker.py, lines 26-46). -/
structure Chunk where
  text : Str
  chunk_type : Str
  page_numbers : List Int
  char_count : Nat
  is_critical : Bool
  note_number : Option Str := none
  sub_note : Option Str := none
  sub_section : Option Str := none
  sub_sub_section : Option Str := none
  note_title : Option Str := none
  content_types : Option (List Str) := none
  has_subjective : Bool := false
  has_objective : Bool := false
  hierarchy_level : Nat := 0
  parent_note : Option Str := none
  is_complete_note : Bool := false
deriving DecidableEq, Repr

/-- A chunk with only the five positional fields set, as built by the
element-level strategies. -/
def mkPlainChunk (text : Str) (ctype : Str) (page : Int) (crit : Bool) : Chunk :=
  { text := text, chunk_type := ctype, page_numbers := [page],
    char_count := text.length, is_critical := crit }

/-- An element extracted by `_extract_elements` (a dict with keys
`type`/`text`/`page_num` in the source; `type` is renamed `etype`). -/
structure Element where
  etype : Str
  text : Str
  page_num : Int
deriving DecidableEq, Repr

/-! ### universal_classifier.py -/

/-- The `critical_keywords` list of
`UniversalClassifier.is_critical_paragraph` (universal_classifier.py,
lines 355-368). -/
def criticalKeywords : List Str :=
  [("fair value".toList), ("investment propert".toList),
   ("as at march 31".toList), ("as at".toList), ("carrying amount".toList),
   ("note:".toList), ("note ".toList), ("significant accounting".toList),
   ("the group\x27s investment".toList), ("the company\x27s investment".toList),
   ("determined based on".toList), ("fair values of the properties".toList),
   ("properties are inr".toList)]

/-- `UniversalClassifier.is_critical_paragraph` (universal_classifier.py,
lines 343-375): true iff the lowercased text contains any critical
keyword. -/
def is_critical_paragraph (text : Str) : Bool :=
  criticalKeywords.any (fun kw => decide (List.IsInfix kw (pyLower text)))

/-! ### Sentence splitting: `re.split(r'(?<=[.!?])\s+', text)`

The pattern splits at each maximal whitespace run whose immediately
preceding character is `.`, `!` or `?`. -/

/-- Sentence-terminating characters (`[.!?]`). -/
def isSentEnd (c : Char) : Bool := c = '.' || c = '!' || c = '?'

/-- Does the reversed accumulator end (in the original order) with a
sentence terminator? -/
def endsSentence (rcur : List Char) : Bool :=
  match rcur with
  | p :: _ => isSentEnd p
  | [] => false

/-- Scanner for `re.split(r'(?<=[.!?])\s+', text)`: `rcur` is the current
piece, reversed; `skipping` is true while the scanner is inside the
whitespace run of a separator match (so the run's remaining characters are
consumed by the match), which expresses the greedy `\s+` as a structural
recursion. -/
def splitSentencesAux (skipping : Bool) (rcur : List Char) :
    List Char → List Str
  | [] => [rcur.reverse]
  | c :: rest =>
    if skipping && isPySpace c then
      splitSentencesAux true rcur rest
    else if !skipping && (isPySpace c && endsSentence rcur) then
      rcur.reverse :: splitSentencesAux true [] rest
    else
      splitSentencesAux false (c :: rcur) rest

/-- `re.split(r'(?<=[.!?])\s+', text)` in `_chunk_paragraph`. -/
def splitSentences (text : Str) : List Str := splitSentencesAux false [] text

/-- `sentences[sentences.index(sentence) - 1] if sentences.index(sentence) > 0
else ""` — the overlap sentence (note: `list.index` is the index of the
*first* occurrence of the value). -/
def lastSentenceFor (sentences : List Str) (s : Str) : Str :=
  if 0 < sentences.indexOf s then sentences.getD (sentences.indexOf s - 1) [] else []

/-- `if current_chunk.strip(): chunks.append(Chunk(...))` for the
paragraph loop. -/
def flushPara (page : Int) (chunks : List Chunk) (cur : Str) : List Chunk :=
  if (pyStrip cur).isEmpty then chunks
  else chunks ++ [mkPlainChunk (pyStrip cur) ("paragraph".toList) page false]

/-- The accumulation loop of `_chunk_paragraph` (adaptive_chunker.py,
lines 892-930), including the final flush. -/
def chunkParagraphLoop (maxSize : Nat) (page : Int) (sentences : List Str)
    (chunks : List Chunk) (cur : Str) (curSize : Nat) :
    List Str → List Chunk
  | [] => flushPara page chunks cur
  | s :: rest =>
    if curSize + s.length ≤ maxSize then
      chunkParagraphLoop maxSize page sentences chunks (cur ++ s ++ [' '])
        (curSize + s.length + 1) rest
    else
      if flushPara page chunks cur = [] then
        chunkParagraphLoop maxSize page sentences (flushPara page chunks cur)
          (s ++ [' ']) (s.length + 1) rest
      else
        chunkParagraphLoop maxSize page sentences (flushPara page chunks cur)
          (lastSentenceFor sentences s ++ [' '] ++ s ++ [' '])
          ((lastSentenceFor sentences s).length + s.length + 2) rest

/-- `_chunk_paragraph` (adaptive_chunker.py, lines 881-938). -/
def chunk_paragraph (maxSize : Nat) (text : Str) (page : Int) : List Chunk :=
  if chunkParagraphLoop maxSize page (splitSentences text) [] [] 0
      (splitSentences text) = []
  then [mkPlainChunk text ("paragraph".toList) page false]
  else chunkParagraphLoop maxSize page (splitSentences text) [] [] 0
      (splitSentences text)

/-! ### List-item splitting:
`re.split(r'(?=(?:^|\n)\s*(?:\d+\.|[•\-\*])\s+)', text)`

The pattern is a zero-width lookahead, so the string is split at every
position where the marker pattern matches (position 0 contributes a
leading empty piece).  Without `re.MULTILINE`, `^` matches only at
position 0; a `\n` matched by the alternation is consumed inside the
lookahead, which does not change the split position.  The character
classes of `\s*`, `\d+\.`/`[•\-\*]` and `\s+` are pairwise disjoint at
their boundaries, so the greedy parse below is exact. -/

/-- The body `\s*(?:\d+\.|[•\-\*])\s+` of the list-marker pattern. -/
def markerBody (t : List Char) : Bool :=
  match t.dropWhile isPySpace with
  | c :: t2 =>
    if c.isDigit then
      match (c :: t2).dropWhile Char.isDigit with
      | '.' :: t4 => (match t4 with | d :: _ => isPySpace d | [] => false)
      | _ => false
    else if c = '•' || c = '-' || c = '*' then
      (match t2 with | d :: _ => isPySpace d | [] => false)
    else false
  | [] => false

/-- The zero-width list-marker lookahead at position `i` (with `^`
anchored to position 0 only: the split pattern is compiled without
`re.MULTILINE`). -/
def listMarkerAhead (text : Str) (i : Nat) : Bool :=
  if i = 0 then markerBody text
  else match text.drop i with
    | '\n' :: t2 => markerBody t2
    | _ => false

/-- Cut `text` at the given (sorted) positions. -/
def splitAtPositions (text : Str) : Nat → List Nat → List Str
  | start, [] => [text.drop start]
  | start, p :: ps => (text.drop start).take (p - start) :: splitAtPositions text p ps

/-- `re.split(r'(?=(?:^|\n)\s*(?:\d+\.|[•\-\*])\s+)', text)` in
`_chunk_list`. -/
def splitListItems (text : Str) : List Str :=
  splitAtPositions text 0
    ((List.range (text.length + 1)).filter (fun i => listMarkerAhead text i))

/-- `items = [item.strip() for item in items if item.strip()]`. -/
def listItems (text : Str) : List Str :=
  ((splitListItems text).map pyStrip).filter (fun s => !s.isEmpty)

/-- `if current_chunk.strip(): chunks.append(Chunk(...))` for the list
loop. -/
def flushList (page : Int) (chunks : List Chunk) (cur : Str) : List Chunk :=
  if (pyStrip cur).isEmpty then chunks
  else chunks ++ [mkPlainChunk (pyStrip cur) ("list".toList) page false]

/-- The accumulation loop of `_chunk_list` (adaptive_chunker.py,
lines 948-980), including the final flush. -/
def chunkListLoop (maxSize : Nat) (page : Int) (chunks : List Chunk)
    (cur : Str) (curSize : Nat) : List Str → List Chunk
  | [] => flushList page chunks cur
  | it :: rest =>
    if curSize + it.length ≤ maxSize then
      chunkListLoop maxSize page chunks (cur ++ it ++ ['\n'])
        (curSize + it.length + 1) rest
    else
      chunkListLoop maxSize page (flushList page chunks cur)
        (it ++ ['\n']) (it.length + 1) rest

/-- `_chunk_list` (adaptive_chunker.py, lines 940-988). -/
def chunk_list (maxSize : Nat) (text : Str) (page : Int) : List Chunk :=
  if chunkListLoop maxSize page [] [] 0 (listItems text) = []
  then [mkPlainChunk text ("list".toList) page false]
  else chunkListLoop maxSize page [] [] 0 (listItems text)

/-! ### Element extraction and classification -/

/-- Is `i` a line start (position 0 or preceded by a newline)?  This is
where `^` can match under `re.MULTILINE`. -/
def lineStartAt (text : Str) (i : Nat) : Bool :=
  i == 0 || text[i-1]? == some '\n'

/-- Can `$` match at `j` under `re.MULTILINE` (end of string or before a
newline)? -/
def dollarAt (text : Str) (j : Nat) : Bool :=
  j == text.length || text[j]? == some '\n'

/-- The character class `[A-Z\s]` of the heading pattern. -/
def isHeadingClass (c : Char) : Bool :=
  (('A' ≤ c) && (c ≤ 'Z')) || isPySpace c

/-- Match of `^[A-Z\s]{10,}$` starting at line start `i` (MULTILINE; the
class run may cross newlines, and the greedy repetition backtracks to any
length ≥ 10 that ends at a `$` position). -/
def headingRunMatch (text : Str) (i : Nat) : Bool :=
  let run := ((text.drop i).takeWhile isHeadingClass).length
  (List.range (run + 1)).any (fun k => decide (10 ≤ k) && dollarAt text (i + k))

/-- Match of `^NOTE\s+\d+` (case-sensitive) starting at line start `i`. -/
def noteHeadingAt (text : Str) (i : Nat) : Bool :=
  let t := text.drop i
  ("NOTE".toList).isPrefixOf t &&
    (let t2 := t.drop 4
     decide (1 ≤ (t2.takeWhile isPySpace).length) &&
       (match t2.dropWhile isPySpace with
        | d :: _ => d.isDigit
        | [] => false))

/-- `heading_pattern.search`: `^[A-Z\s]{10,}$|^NOTE\s+\d+` with
`re.MULTILINE` (adaptive_chunker.py, lines 334-337). -/
def heading_search (text : Str) : Bool :=
  (List.range (text.length + 1)).any (fun i =>
    lineStartAt text i && (headingRunMatch text i || noteHeadingAt text i))

/-- The lines of a text (`'\n'`-separated). -/
def pyLines (text : Str) : List Str := text.splitOn '\n'

/-- A line matching `\s*\|.*\|.*$`: first non-whitespace character is `|`
and a second `|` follows on the same line. -/
def isTableRowLine (L : Str) : Bool :=
  match L.dropWhile isPySpace with
  | c :: rest => c = '|' && rest.contains '|'
  | [] => false

/-- A line matching `\s*[-+]+\s*$`: optional whitespace, a non-empty run of
`-`/`+`, then only whitespace to the end of the line. -/
def isDashRuleLine (L : Str) : Bool :=
  let t := L.dropWhile isPySpace
  let d := (t.takeWhile (fun c => c = '-' || c = '+')).length
  decide (1 ≤ d) && (t.drop d).all isPySpace

/-- `table_pattern.search`: `(?:^|\n)(?:\s*\|.*\|.*$|\s*[-+]+\s*$)` with
`re.MULTILINE` (adaptive_chunker.py, lines 324-327).  Because `.` cannot
cross a newline, `$` matches before any newline, and the `\s*` runs only
help the match when the surrounding line content is whitespace, the search
succeeds exactly when some single line satisfies one of the two per-line
shapes above. -/
def table_search (text : Str) : Bool :=
  (pyLines text).any (fun L => isTableRowLine L || isDashRuleLine L)

/-- `list_pattern.search`: `(?:^|\n)\s*(?:\d+\.|[•\-\*])\s+` with
`re.MULTILINE` (adaptive_chunker.py, lines 329-332).  A `\n` consumed by
the alternation leaves a line start right after it and `\s*` absorbs the
newline either way, so the search succeeds exactly when the marker body
matches at some line start. -/
def list_search (text : Str) : Bool :=
  (List.range (text.length + 1)).any (fun i =>
    lineStartAt text i && markerBody (text.drop i))

/-- `_classify_element_type` (adaptive_chunker.py, lines 797-814). -/
def classify_element_type (text : Str) : Str :=
  let ts := pyStrip text
  if decide (ts.length < 100) && heading_search ts then ("heading".toList)
  else if table_search ts then ("table".toList)
  else if list_search ts then ("list".toList)
  else ("paragraph".toList)

/-- One step of `re.split(r'\n\s*\n', text)`: if a separator match starts
at `i`, return the position just after it.  The greedy `\s*` backtracks to
the *last* newline inside the whitespace run following `i`. -/
def blankSepEndAt (text : Str) (i : Nat) : Option Nat :=
  match text[i]? with
  | some '\n' =>
    Option.map (fun d => i + d + 2)
      ((List.range ((text.drop (i+1)).takeWhile isPySpace).length).filter
        (fun d => ((text.drop (i+1)).takeWhile isPySpace)[d]? == some '\n')).max?
  | _ => none

theorem blankSepEndAt_gt {text : Str} {i e : Nat}
    (h : blankSepEndAt text i = some e) : i < e := by
  unfold blankSepEndAt at h
  split at h
  · rcases Option.map_eq_some'.mp h with ⟨d, _, rfl⟩
    omega
  · exact absurd h (by simp)

/-- The scanner of `re.split(r'\n\s*\n', text)`: leftmost separator match
first, continuing after each match.  The recursion is structural on an
explicit step counter; since every step advances `i` by at least one,
`fuel + i ≥ text.length + 1` keeps the counter from ever reaching the
(unreachable) base case, whose value is chosen to coincide with the
scanner's end-of-text result so the function agrees with the unbounded
scan for every sufficient fuel. -/
def splitBlankAux (text : Str) : Nat → Nat → Nat → List Str
  | 0, start, _ => [text.drop start]
  | fuel + 1, start, i =>
    if i < text.length then
      match blankSepEndAt text i with
      | some e =>
        ((text.drop start).take (i - start)) ::
          splitBlankAux text fuel e (max e (i + 1))
      | none => splitBlankAux text fuel start (i + 1)
    else [text.drop start]

/-- `re.split(r'\n\s*\n', text)` in `_extract_elements`. -/
def splitBlank (text : Str) : List Str :=
  splitBlankAux text (text.length + 1) 0 0

/-- `_extract_elements` (adaptive_chunker.py, lines 771-795): split on
blank lines, drop whitespace-only sections, classify and strip each. -/
def extract_elements (text : Str) (page : Int) : List Element :=
  (splitBlank text).filterMap (fun sec =>
    if (pyStrip sec).isEmpty then none
    else some ⟨classify_element_type sec, pyStrip sec, page⟩)

/-- `_chunk_element` (adaptive_chunker.py, lines 816-879). -/
def chunk_element (maxSize : Nat) (el : Element) (page : Int) : List Chunk :=
  let t := el.text
  if el.etype = ("table".toList) then
    [mkPlainChunk t ("table".toList) page true]
  else if el.etype = ("paragraph".toList) ∧ is_critical_paragraph t then
    [mkPlainChunk t ("paragraph".toList) page true]
  else if el.etype = ("heading".toList) then
    [mkPlainChunk t ("heading".toList) page true]
  else if el.etype = ("list".toList) then
    if t.length ≤ maxSize then [mkPlainChunk t ("list".toList) page false]
    else chunk_list maxSize t page
  else
    if t.length ≤ maxSize then [mkPlainChunk t ("paragraph".toList) page false]
    else chunk_paragraph maxSize t page

/-! ### C1: critical paragraph preservation -/

/-- **C1.**  A paragraph element the classifier flags critical is emitted by
`_chunk_element` as exactly one chunk, whose text is the whole element and
whose `is_critical` flag is true, for every `max_chunk_size`. -/
theorem claim_C1_critical_paragraph_preserved (maxSize : Nat) (el : Element)
    (page : Int) (h1 : el.etype = ("paragraph".toList))
    (h2 : is_critical_paragraph el.text = true) :
    chunk_element maxSize el page
      = [{ text := el.text, chunk_type := ("paragraph".toList),
           page_numbers := [page], char_count := el.text.length,
           is_critical := true }] := by
  unfold chunk_element
  have ht : ¬ (el.etype = ("table".toList)) := by
    rw [h1]; decide
  rw [if_neg ht, if_pos ⟨h1, h2⟩]
  rfl

/-- Concrete instance for C1: a 25-character critical paragraph survives
whole even with `max_chunk_size = 1`. -/
theorem claim_C1_critical_paragraph_preserved_witness :
    chunk_element 1
        (Element.mk ("paragraph".toList) ("The fair value of assets.".toList) 196)
        196
      = [{ text := ("The fair value of assets.".toList),
           chunk_type := ("paragraph".toList), page_numbers := [(196 : Int)],
           char_count := ("The fair value of assets.".toList).length,
           is_critical := true }] :=
  claim_C1_critical_paragraph_preserved 1 _ 196 rfl (by decide)

/-! ### Whitespace-stripping lemmas -/

theorem pyRstrip_length_le (s : Str) : (pyRstrip s).length ≤ s.length := by
  unfold pyRstrip
  calc (s.reverse.dropWhile isPySpace).reverse.length
      = (s.reverse.dropWhile isPySpace).length := List.length_reverse _
    _ ≤ s.reverse.length := (List.dropWhile_sublist isPySpace).length_le
    _ = s.length := List.length_reverse s

theorem pyStrip_length_le (s : Str) : (pyStrip s).length ≤ s.length := by
  unfold pyStrip
  exact (pyRstrip_length_le _).trans
    ((List.dropWhile_sublist isPySpace).length_le)

theorem pyRstrip_append_ws {c : Char} (hc : isPySpace c = true) (a : Str) :
    pyRstrip (a ++ [c]) = pyRstrip a := by
  unfold pyRstrip
  rw [List.reverse_append, List.reverse_singleton, List.singleton_append,
    List.dropWhile_cons]
  rw [hc]
  simp

theorem pyStrip_append_ws_length {c : Char} (hc : isPySpace c = true)
    (a : Str) : (pyStrip (a ++ [c])).length ≤ a.length := by
  unfold pyStrip pyLstrip
  rw [List.dropWhile_append]
  split
  · have hnil : List.dropWhile isPySpace [c] = [] := by
      rw [List.dropWhile_cons]
      rw [hc]
      simp
    rw [hnil]
    simp [pyRstrip]
  · rw [pyRstrip_append_ws hc]
    exact (pyRstrip_length_le _).trans
      (List.dropWhile_sublist isPySpace).length_le

theorem pyStrip_eq_nil_iff (s : Str) :
    pyStrip s = [] ↔ ∀ c ∈ s, isPySpace c = true := by
  constructor
  · intro h c hc
    by_contra hcw
    have hls : pyLstrip s ≠ [] := by
      unfold pyLstrip
      rw [Ne, List.dropWhile_eq_nil_iff]
      push_neg
      exact ⟨c, hc, hcw⟩
    rcases List.exists_cons_of_ne_nil hls with ⟨c0, t, he⟩
    have hc0 : isPySpace c0 = false := by
      by_contra hc0
      have hc0' : isPySpace c0 = true := by
        cases hh : isPySpace c0
        · exact absurd hh hc0
        · rfl
      have := List.dropWhile_cons_of_pos (l := t) (p := isPySpace) (a := c0)
      unfold pyLstrip at he
      have hdw : List.dropWhile isPySpace s = c0 :: t := he
      have : (List.dropWhile isPySpace (List.dropWhile isPySpace s)) =
          List.dropWhile isPySpace s := List.dropWhile_idempotent ..
      rw [hdw, List.dropWhile_cons, hc0'] at this
      have hlen := congrArg List.length this
      simp at hlen
      have := (List.dropWhile_sublist isPySpace (l := t)).length_le
      omega
    have : pyStrip s ≠ [] := by
      unfold pyStrip
      rw [he]
      unfold pyRstrip
      rw [Ne, List.reverse_eq_nil_iff]
      rw [List.dropWhile_eq_nil_iff]
      push_neg
      refine ⟨c0, ?_, by rw [hc0]; simp⟩
      rw [List.reverse_cons]
      exact List.mem_append_right _ (List.mem_singleton.mpr rfl)
    exact this h
  · intro h
    have : pyLstrip s = [] := by
      unfold pyLstrip
      rw [List.dropWhile_eq_nil_iff]
      exact h
    rw [pyStrip, this]
    rfl

/-! ### Structure of the sentence split -/

theorem splitSentencesAux_ne_nil (l : List Char) :
    ∀ (skipping : Bool) (rcur : List Char),
    splitSentencesAux skipping rcur l ≠ [] := by
  induction l with
  | nil => intro skipping rcur; simp [splitSentencesAux]
  | cons c rest ih =>
    intro skipping rcur
    simp only [splitSentencesAux]
    split
    · exact ih true rcur
    · split
      · simp
      · exact ih false (c :: rcur)

/-- Every piece of the sentence split except the last ends in a
sentence-terminating character. -/
theorem splitSentencesAux_init_ends (l : List Char) :
    ∀ (skipping : Bool) (rcur : List Char),
    ∀ p ∈ (splitSentencesAux skipping rcur l).dropLast,
      ∃ a c, p = a ++ [c] ∧ isSentEnd c = true := by
  induction l with
  | nil => intro skipping rcur; simp [splitSentencesAux]
  | cons c rest ih =>
    intro skipping rcur p hp
    simp only [splitSentencesAux] at hp
    split at hp
    · exact ih true rcur p hp
    · split at hp
      · rename_i hskip hcond
        rw [List.dropLast_cons_of_ne_nil (splitSentencesAux_ne_nil _ _ _)] at hp
        rcases List.mem_cons.mp hp with rfl | hp
        · rcases Bool.and_eq_true_iff.mp (Bool.and_eq_true_iff.mp hcond).2
            with ⟨_, hend⟩
          cases rcur with
          | nil => exact absurd hend (by simp [endsSentence])
          | cons p0 rt =>
            exact ⟨rt.reverse, p0, by simp, by simpa [endsSentence] using hend⟩
        · exact ih true [] p hp
      · exact ih false (c :: rcur) p hp

/-- If the sentence split (not inside a separator) returns a single piece,
that piece is the whole remaining text prefixed by the accumulator. -/
theorem splitSentencesAux_singleton (l : List Char) :
    ∀ (rcur : List Char) (s : Str),
    splitSentencesAux false rcur l = [s] → s = rcur.reverse ++ l := by
  induction l with
  | nil =>
    intro rcur s hs
    simp [splitSentencesAux] at hs
    simp [hs]
  | cons c rest ih =>
    intro rcur s hs
    rw [splitSentencesAux, if_neg (by simp)] at hs
    split at hs
    · exact absurd (List.cons_eq_cons.mp hs).2 (splitSentencesAux_ne_nil _ _ _)
    · rw [ih (c :: rcur) s hs]
      simp

theorem splitSentences_ne_nil (text : Str) : splitSentences text ≠ [] :=
  splitSentencesAux_ne_nil text false []

theorem splitSentences_singleton {text s : Str}
    (h : splitSentences text = [s]) : s = text := by
  have := splitSentencesAux_singleton text [] s h
  simpa using this

/-- The overlap sentence is either empty or one of the sentences. -/
theorem lastSentenceFor_mem_or_nil (sentences : List Str) (s : Str) :
    lastSentenceFor sentences s = [] ∨ lastSentenceFor sentences s ∈ sentences := by
  unfold lastSentenceFor
  split
  · rename_i hidx
    by_cases hlt : sentences.indexOf s - 1 < sentences.length
    · right
      rw [List.getD_eq_getElem _ _ hlt]
      exact List.getElem_mem hlt
    · left
      exact List.getD_eq_default _ _ (le_of_not_lt hlt)
  · left; rfl

/-! ### C3: the size budget -/

theorem stripped_flush_le {maxSize curSize : Nat} {cur : Str} {sep : Char}
    (hsep : isPySpace sep = true) (hlen : cur.length = curSize)
    (hsz : curSize ≤ maxSize + 1)
    (hend : cur = [] ∨ ∃ a, cur = a ++ [sep]) :
    (pyStrip cur).length ≤ maxSize := by
  rcases hend with rfl | ⟨a, rfl⟩
  · have : pyStrip ([] : Str) = [] := rfl
    rw [this]
    exact Nat.zero_le maxSize
  · have h1 := pyStrip_append_ws_length hsep a
    have hL : a.length + 1 = curSize := by simpa using hlen
    omega

theorem flushPara_bound {maxSize : Nat} {page : Int} {chunks : List Chunk}
    {cur : Str} (hch : ∀ c ∈ chunks, c.text.length ≤ maxSize)
    (hcur : (pyStrip cur).length ≤ maxSize) :
    ∀ c ∈ flushPara page chunks cur, c.text.length ≤ maxSize := by
  intro c hc
  unfold flushPara at hc
  split at hc
  · exact hch c hc
  · rcases List.mem_append.mp hc with hc | hc
    · exact hch c hc
    · rcases List.mem_singleton.mp hc with rfl
      exact hcur

theorem flushList_bound {maxSize : Nat} {page : Int} {chunks : List Chunk}
    {cur : Str} (hch : ∀ c ∈ chunks, c.text.length ≤ maxSize)
    (hcur : (pyStrip cur).length ≤ maxSize) :
    ∀ c ∈ flushList page chunks cur, c.text.length ≤ maxSize := by
  intro c hc
  unfold flushList at hc
  split at hc
  · exact hch c hc
  · rcases List.mem_append.mp hc with hc | hc
    · exact hch c hc
    · rcases List.mem_singleton.mp hc with rfl
      exact hcur

theorem chunkListLoop_bound (maxSize : Nat) (page : Int) :
    ∀ (rest : List Str) (chunks : List Chunk) (cur : Str) (curSize : Nat),
    (∀ it ∈ rest, it.length ≤ maxSize) →
    (∀ c ∈ chunks, c.text.length ≤ maxSize) →
    cur.length = curSize →
    curSize ≤ maxSize + 1 →
    (cur = [] ∨ ∃ a, cur = a ++ ['\n']) →
    ∀ c ∈ chunkListLoop maxSize page chunks cur curSize rest,
      c.text.length ≤ maxSize := by
  intro rest
  induction rest with
  | nil =>
    intro chunks cur curSize _ hch hlen hsz hend
    exact flushList_bound hch (stripped_flush_le (by rfl) hlen hsz hend)
  | cons it rest ih =>
    intro chunks cur curSize hrest hch hlen hsz hend
    have hit : it.length ≤ maxSize := hrest it (List.mem_cons_self _ _)
    have hrest' : ∀ x ∈ rest, x.length ≤ maxSize :=
      fun x hx => hrest x (List.mem_cons_of_mem _ hx)
    simp only [chunkListLoop]
    split
    · rename_i hguard
      refine ih chunks (cur ++ it ++ ['\n']) (curSize + it.length + 1)
        hrest' hch ?_ (by omega) (Or.inr ⟨cur ++ it, by simp⟩)
      simp [hlen]
      try omega
    · refine ih (flushList page chunks cur) (it ++ ['\n']) (it.length + 1)
        hrest'
        (flushList_bound hch (stripped_flush_le (by rfl) hlen hsz hend))
        (by simp) (by omega) (Or.inr ⟨it, rfl⟩)

theorem chunkParagraphLoop_bound (maxSize : Nat) (page : Int)
    (sentences : List Str)
    (Hp : ∀ s ∈ sentences, ∀ t ∈ sentences, s.length + t.length + 1 ≤ maxSize) :
    ∀ (rest : List Str) (chunks : List Chunk) (cur : Str) (curSize : Nat),
    (∀ x ∈ rest, x ∈ sentences) →
    (∀ c ∈ chunks, c.text.length ≤ maxSize) →
    cur.length = curSize →
    curSize ≤ maxSize + 1 →
    (cur = [] ∨ ∃ a, cur = a ++ [' ']) →
    ∀ c ∈ chunkParagraphLoop maxSize page sentences chunks cur curSize rest,
      c.text.length ≤ maxSize := by
  intro rest
  induction rest with
  | nil =>
    intro chunks cur curSize _ hch hlen hsz hend
    exact flushPara_bound hch (stripped_flush_le (by rfl) hlen hsz hend)
  | cons s rest ih =>
    intro chunks cur curSize hrest hch hlen hsz hend
    have hs : s ∈ sentences := hrest s (List.mem_cons_self _ _)
    have hss := Hp s hs s hs
    have hrest' : ∀ x ∈ rest, x ∈ sentences :=
      fun x hx => hrest x (List.mem_cons_of_mem _ hx)
    have hflush : ∀ c ∈ flushPara page chunks cur, c.text.length ≤ maxSize :=
      flushPara_bound hch (stripped_flush_le (by rfl) hlen hsz hend)
    simp only [chunkParagraphLoop]
    split
    · rename_i hguard
      refine ih chunks (cur ++ s ++ [' ']) (curSize + s.length + 1)
        hrest' hch ?_ (by omega) (Or.inr ⟨cur ++ s, by simp⟩)
      simp [hlen]
      try omega
    · split
      · refine ih _ (s ++ [' ']) (s.length + 1) hrest' hflush
          (by simp) (by omega) (Or.inr ⟨s, rfl⟩)
      · rcases lastSentenceFor_mem_or_nil sentences s with hl | hl
        · rw [hl]
          simp only [List.nil_append, List.length_nil, Nat.zero_add]
          refine ih _ ([' '] ++ s ++ [' ']) (s.length + 2) hrest' hflush
            (by simp) (by omega) (Or.inr ⟨[' '] ++ s, by simp⟩)
        · have hls := Hp _ hl s hs
          refine ih _ (lastSentenceFor sentences s ++ [' '] ++ s ++ [' '])
            ((lastSentenceFor sentences s).length + s.length + 2) hrest' hflush
            (by simp; omega) (by omega)
            (Or.inr ⟨lastSentenceFor sentences s ++ [' '] ++ s, by simp⟩)

/-! ### Content lemmas (when can the accumulation loops emit nothing?) -/

theorem pyStrip_append_ne_nil_mid {b : Str} (hb : pyStrip b ≠ [])
    (a c : Str) : pyStrip (a ++ b ++ c) ≠ [] := by
  intro h
  refine hb ((pyStrip_eq_nil_iff b).mpr ?_)
  intro x hx
  exact (pyStrip_eq_nil_iff _).mp h x (by simp [hx])

theorem flushPara_eq_nil_inv {page : Int} {chunks : List Chunk} {cur : Str}
    (h : flushPara page chunks cur = []) : chunks = [] ∧ pyStrip cur = [] := by
  unfold flushPara at h
  split at h
  · rename_i he
    exact ⟨h, by simpa [List.isEmpty_iff] using he⟩
  · exact absurd h (by simp)

theorem flushList_eq_nil_inv {page : Int} {chunks : List Chunk} {cur : Str}
    (h : flushList page chunks cur = []) : chunks = [] ∧ pyStrip cur = [] := by
  unfold flushList at h
  split at h
  · rename_i he
    exact ⟨h, by simpa [List.isEmpty_iff] using he⟩
  · exact absurd h (by simp)

theorem chunkParagraphLoop_content (maxSize : Nat) (page : Int)
    (sentences : List Str) :
    ∀ (rest : List Str) (chunks : List Chunk) (cur : Str) (curSize : Nat),
    (chunks ≠ [] ∨ pyStrip cur ≠ [] ∨ ∃ s ∈ rest, pyStrip s ≠ []) →
    chunkParagraphLoop maxSize page sentences chunks cur curSize rest ≠ [] := by
  intro rest
  induction rest with
  | nil =>
    intro chunks cur curSize h hnil
    rcases flushPara_eq_nil_inv hnil with ⟨h1, h2⟩
    rcases h with h | h | h
    · exact h h1
    · exact h h2
    · simp at h
  | cons s rest ih =>
    intro chunks cur curSize h
    simp only [chunkParagraphLoop]
    split
    · refine ih chunks (cur ++ s ++ [' ']) _ ?_
      rcases h with h | h | h
      · exact Or.inl h
      · refine Or.inr (Or.inl ?_)
        intro hc
        exact h ((pyStrip_eq_nil_iff cur).mpr
          (fun x hx => (pyStrip_eq_nil_iff _).mp hc x (by simp [hx])))
      · rcases h with ⟨x, hx, hxc⟩
        rcases List.mem_cons.mp hx with rfl | hx
        · exact Or.inr (Or.inl (pyStrip_append_ne_nil_mid hxc cur [' ']))
        · exact Or.inr (Or.inr ⟨x, hx, hxc⟩)
    · split
      · rename_i hfl
        rcases flushPara_eq_nil_inv hfl with ⟨hc1, hc2⟩
        rcases h with h | h | h
        · exact absurd hc1 h
        · exact absurd hc2 h
        · rcases h with ⟨x, hx, hxc⟩
          rcases List.mem_cons.mp hx with rfl | hx
          · refine ih _ (x ++ [' ']) _ (Or.inr (Or.inl ?_))
            have := pyStrip_append_ne_nil_mid hxc [] [' ']
            simpa using this
          · exact ih _ _ _ (Or.inr (Or.inr ⟨x, hx, hxc⟩))
      · rename_i hfl
        exact ih _ _ _ (Or.inl hfl)

theorem chunkListLoop_content (maxSize : Nat) (page : Int) :
    ∀ (rest : List Str) (chunks : List Chunk) (cur : Str) (curSize : Nat),
    (chunks ≠ [] ∨ pyStrip cur ≠ [] ∨ ∃ s ∈ rest, pyStrip s ≠ []) →
    chunkListLoop maxSize page chunks cur curSize rest ≠ [] := by
  intro rest
  induction rest with
  | nil =>
    intro chunks cur curSize h hnil
    rcases flushList_eq_nil_inv hnil with ⟨h1, h2⟩
    rcases h with h | h | h
    · exact h h1
    · exact h h2
    · simp at h
  | cons s rest ih =>
    intro chunks cur curSize h
    simp only [chunkListLoop]
    split
    · refine ih chunks (cur ++ s ++ ['\n']) _ ?_
      rcases h with h | h | h
      · exact Or.inl h
      · refine Or.inr (Or.inl ?_)
        intro hc
        exact h ((pyStrip_eq_nil_iff cur).mpr
          (fun x hx => (pyStrip_eq_nil_iff _).mp hc x (by simp [hx])))
      · rcases h with ⟨x, hx, hxc⟩
        rcases List.mem_cons.mp hx with rfl | hx
        · exact Or.inr (Or.inl (pyStrip_append_ne_nil_mid hxc cur ['\n']))
        · exact Or.inr (Or.inr ⟨x, hx, hxc⟩)
    · rcases h with h | h | h
      · refine ih _ (s ++ ['\n']) _ (Or.inl ?_)
        unfold flushList
        split
        · exact h
        · simp
      · refine ih _ (s ++ ['\n']) _ (Or.inl ?_)
        unfold flushList
        split
        · rename_i he
          exact absurd (by simpa [List.isEmpty_iff] using he) h
        · simp
      · rcases h with ⟨x, hx, hxc⟩
        rcases List.mem_cons.mp hx with rfl | hx
        · refine ih _ (x ++ ['\n']) _ (Or.inr (Or.inl ?_))
          have := pyStrip_append_ne_nil_mid hxc [] ['\n']
          simpa using this
        · exact ih _ _ _ (Or.inr (Or.inr ⟨x, hx, hxc⟩))

theorem dropWhile_head_not (p : Char → Bool) :
    ∀ (l : List Char) (c : Char) (t : List Char),
    l.dropWhile p = c :: t → p c = false := by
  intro l
  induction l with
  | nil => intro c t h; simp at h
  | cons a l ih =>
    intro c t h
    rw [List.dropWhile_cons] at h
    split at h
    · exact ih c t h
    · rename_i hpa
      rcases List.cons_eq_cons.mp h with ⟨hac, _⟩
      rw [← hac]
      cases hh : p a
      · rfl
      · exact absurd hh hpa

theorem pyStrip_idem (s : Str) : pyStrip (pyStrip s) = pyStrip s := by
  cases hs : pyStrip s with
  | nil => rfl
  | cons c t =>
    have hpre : List.IsPrefix (pyStrip s) (pyLstrip s) := by
      unfold pyStrip pyRstrip
      rw [← List.reverse_suffix]
      simp only [List.reverse_reverse]
      exact List.dropWhile_suffix isPySpace
    have hc : isPySpace c = false := by
      rcases hpre with ⟨u, hu⟩
      rw [hs] at hu
      rcases hl : pyLstrip s with _ | ⟨c0, t0⟩
      · rw [hl] at hu
        simp at hu
      · have hc0 : isPySpace c0 = false := dropWhile_head_not isPySpace s c0 t0 hl
        rw [hl] at hu
        have hcc : c = c0 := by
          have h2 := congrArg List.head? hu
          simpa using h2
        rw [hcc]
        exact hc0
    have hrev : ∃ d u, (pyStrip s).reverse = d :: u ∧ isPySpace d = false := by
      unfold pyStrip pyRstrip
      rw [List.reverse_reverse]
      rcases hw : (pyLstrip s).reverse.dropWhile isPySpace with _ | ⟨d, u⟩
      · have hnil : pyStrip s = [] := by
          unfold pyStrip pyRstrip
          rw [hw]
          rfl
        rw [hs] at hnil
        simp at hnil
      · exact ⟨d, u, rfl, dropWhile_head_not isPySpace _ d u hw⟩
    rcases hrev with ⟨d, u, hdu, hd⟩
    rw [← hs]
    show pyRstrip (pyLstrip (pyStrip s)) = pyStrip s
    have h1 : pyLstrip (pyStrip s) = pyStrip s := by
      unfold pyLstrip
      rw [hs, List.dropWhile_cons, hc]
      simp
    rw [h1]
    show ((pyStrip s).reverse.dropWhile isPySpace).reverse = pyStrip s
    rw [hdu, List.dropWhile_cons, hd]
    simp [← hdu]

theorem isSentEnd_not_space {c : Char} (h : isSentEnd c = true) :
    isPySpace c = false := by
  simp only [isSentEnd, Bool.or_eq_true, decide_eq_true_eq] at h
  rcases h with (rfl | rfl) | rfl <;> rfl

/-- **C3 (amended).**  The size budget holds for the two splitting
strategies under the conditions the algorithm actually guarantees: every
sentence-split chunk fits `max_chunk_size` provided any two sentences plus
a separator fit the budget (the one-sentence overlap prefix makes pairs of
sentences the relevant unit, and a single oversized sentence is emitted
whole), and every list chunk fits provided the list splits into at least
one item and each item fits the budget. -/
theorem claim_C3_amended_size_budget (maxSize : Nat) (page : Int) (text : Str) :
    ((∀ s ∈ splitSentences text, ∀ t ∈ splitSentences text,
        s.length + t.length + 1 ≤ maxSize) →
      ∀ c ∈ chunk_paragraph maxSize text page, c.text.length ≤ maxSize) ∧
    ((listItems text ≠ [] ∧ ∀ it ∈ listItems text, it.length ≤ maxSize) →
      ∀ c ∈ chunk_list maxSize text page, c.text.length ≤ maxSize) := by
  constructor
  · intro Hp c hc
    unfold chunk_paragraph at hc
    split at hc
    · rename_i hres
      have hallws : ∀ s ∈ splitSentences text, pyStrip s = [] := by
        intro s hsx
        by_contra hcon
        exact chunkParagraphLoop_content maxSize page (splitSentences text)
          (splitSentences text) [] [] 0 (Or.inr (Or.inr ⟨s, hsx, hcon⟩)) hres
      have hsingle : splitSentences text = [text] := by
        rcases hsp : splitSentences text with _ | ⟨s0, rest0⟩
        · exact absurd hsp (splitSentences_ne_nil text)
        · rcases rest0 with _ | ⟨s1, rest1⟩
          · exact congrArg (fun x => [x]) (splitSentences_singleton hsp)
          · exfalso
            have hmem : s0 ∈ (splitSentences text).dropLast := by
              rw [hsp]
              simp
            rcases splitSentencesAux_init_ends text false [] s0 hmem with ⟨a, ch, heq, hch⟩
            have h1 := hallws s0 (by rw [hsp]; exact List.mem_cons_self _ _)
            have h2 := (pyStrip_eq_nil_iff _).mp h1 ch (by rw [heq]; simp)
            rw [isSentEnd_not_space hch] at h2
            exact Bool.false_ne_true h2
      rcases List.mem_singleton.mp hc with rfl
      have hb := Hp text (by rw [hsingle]; exact List.mem_singleton.mpr rfl)
        text (by rw [hsingle]; exact List.mem_singleton.mpr rfl)
      show text.length ≤ maxSize
      omega
    · exact chunkParagraphLoop_bound maxSize page (splitSentences text) Hp
        (splitSentences text) [] [] 0 (fun x hx => hx) (by simp) rfl
        (by omega) (Or.inl rfl) c hc
  · intro hyp c hc
    rcases hyp with ⟨hne, Hl⟩
    unfold chunk_list at hc
    split at hc
    · rename_i hres
      exfalso
      rcases List.exists_cons_of_ne_nil hne with ⟨it0, rest0, hit⟩
      have hmem : it0 ∈ listItems text := by
        rw [hit]
        exact List.mem_cons_self _ _
      have hstr : pyStrip it0 ≠ [] := by
        unfold listItems at hmem
        rcases List.mem_filter.mp hmem with ⟨hm, hne0⟩
        rcases List.mem_map.mp hm with ⟨p, _, hpe⟩
        rw [← hpe, pyStrip_idem]
        rw [← hpe] at hne0
        simpa [List.isEmpty_iff] using hne0
      exact chunkListLoop_content maxSize page (listItems text) [] [] 0
        (Or.inr (Or.inr ⟨it0, hmem, hstr⟩)) hres
    · exact chunkListLoop_bound maxSize page (listItems text) [] [] 0
        Hl (by simp) rfl (by omega) (Or.inl rfl) c hc

/-- Counterexample to **C3** as stated: an 8-character single-sentence
paragraph with `max_chunk_size = 5` is emitted as one non-critical chunk of
length 8 > 5. -/
theorem claim_C3_counterexample :
    chunk_element 5 (Element.mk ("paragraph".toList) ("aaaaaaaa".toList) 1) 1
      = [{ text := ("aaaaaaaa".toList), chunk_type := ("paragraph".toList),
           page_numbers := [(1 : Int)], char_count := 8,
           is_critical := false }] ∧
    ¬ (("aaaaaaaa".toList).length ≤ 5) := by
  exact ⟨by decide, by decide⟩

/-- Concrete instance for the amended C3: two short sentences with
`max_chunk_size = 10` produce one in-budget chunk, and three short list
items with `max_chunk_size = 10` produce in-budget chunks. -/
theorem claim_C3_amended_size_budget_witness :
    (∀ c ∈ chunk_paragraph 10 ("ab. cd.".toList) 1, c.text.length ≤ 10) ∧
    (∀ c ∈ chunk_list 10 ("1. aa\n2. bb".toList) 1, c.text.length ≤ 10) :=
  ⟨(claim_C3_amended_size_budget 10 1 ("ab. cd.".toList)).1 (by decide),
   (claim_C3_amended_size_budget 10 1 ("1. aa\n2. bb".toList)).2 (by decide)⟩

/-! ## adaptive_chunker.py: the note parser

The main-note pattern is
`(?:^|\n)\s*NOTE\s+(\d+)\s*[-–—:]*\s*([A-Z][A-Za-z\s,&\(\)]*)` with
`re.IGNORECASE | re.MULTILINE`.  Under `MULTILINE`, `^` matches at
position 0 and after every newline; a `\n` matched by the alternation is
absorbed by the following `\s*` either way, so the body can be parsed from
the match start in all anchor cases.  The consecutive classes
(whitespace, `NOTE`, digits, separator dashes, title letters) are pairwise
disjoint at their boundaries, so the greedy parse below is exact. -/

/-- The separator class `[-–—:]`. -/
def isDashSep (c : Char) : Bool := c = '-' || c = '–' || c = '—' || c = ':'

/-- ASCII letter (what `[A-Z]` matches under `IGNORECASE`). -/
def isAsciiLetter (c : Char) : Bool :=
  (('A' ≤ c) && (c ≤ 'Z')) || (('a' ≤ c) && (c ≤ 'z'))

/-- The title class `[A-Za-z\s,&\(\)]`. -/
def isTitleClass (c : Char) : Bool :=
  isAsciiLetter c || isPySpace c || c = ',' || c = '&' || c = '(' || c = ')'

/-- Anchor positions of `(?:^|\n)` under `MULTILINE`. -/
def noteAnchorAt (text : Str) (i : Nat) : Bool :=
  i == 0 || text[i-1]? == some '\n' || text[i]? == some '\n'

/-- Parse `\s*NOTE\s+(\d+)\s*[-–—:]*\s*([A-Z][A-Za-z\s,&\(\)]*)`
(case-insensitive) at the head of `t`; returns the digit group, the raw
title group and the number of characters consumed. -/
def matchNoteBody (t : List Char) : Option (Str × Str × Nat) :=
  let ws0 := (t.takeWhile isPySpace).length
  let t1 := t.drop ws0
  if pyLower (t1.take 4) = ("note".toList) then
    let t2 := t1.drop 4
    let ws1 := (t2.takeWhile isPySpace).length
    if ws1 = 0 then none
    else
      let t3 := t2.drop ws1
      let ds := t3.takeWhile Char.isDigit
      if ds.length = 0 then none
      else
        let t4 := t3.drop ds.length
        let ws2 := (t4.takeWhile isPySpace).length
        let t5 := t4.drop ws2
        let dash := (t5.takeWhile isDashSep).length
        let t6 := t5.drop dash
        let ws3 := (t6.takeWhile isPySpace).length
        let t7 := t6.drop ws3
        match t7 with
        | c :: _ =>
          if isAsciiLetter c then
            let title := t7.takeWhile isTitleClass
            some (ds, title,
              ws0 + 4 + ws1 + ds.length + ws2 + dash + ws3 + title.length)
          else none
        | [] => none
  else none

/-- One candidate match of `main_note_pattern` at position `i`:
`(digit group, raw title group, match end)`. -/
def matchMainNoteAt (text : Str) (i : Nat) : Option (Str × Str × Nat) :=
  if noteAnchorAt text i then
    (matchNoteBody (text.drop i)).map (fun g => (g.1, g.2.1, i + g.2.2))
  else none

/-- A match of `main_note_pattern` as consumed by
`detect_note_boundaries`. -/
structure RawNoteMatch where
  num : Str
  title : Str
  start : Nat
  stop : Nat
deriving DecidableEq, Repr

/-- The scan of `main_note_pattern.finditer(text)` (leftmost matches,
non-overlapping, continuing after each match end).  Structural on an
explicit step counter; every step advances the position, and the counter
is chosen large enough that the base case (whose value agrees with the
end-of-scan result) is never reached. -/
def findMainNotes (text : Str) : Nat → Nat → List RawNoteMatch
  | 0, _ => []
  | fuel + 1, p =>
    if p ≤ text.length then
      match matchMainNoteAt text p with
      | some g => ⟨g.1, g.2.1, p, g.2.2⟩ ::
          findMainNotes text fuel (max g.2.2 (p + 1))
      | none => findMainNotes text fuel (p + 1)
    else []

/-- `main_note_pattern.finditer(text)`. -/
def finditer_main_notes (text : Str) : List RawNoteMatch :=
  findMainNotes text (text.length + 2) 0

/-- A main-note boundary dict of `detect_note_boundaries`
(adaptive_chunker.py, lines 106-148). -/
structure NoteBoundary where
  note_number : Str
  note_title : Str
  start_pos : Nat
  end_pos : Nat
deriving DecidableEq, Repr

/-- The end-position fix-up loop of `detect_note_boundaries`: each
boundary ends at the next boundary's start, the last at document end. -/
def setEnds : List (Str × Str × Nat) → Nat → List NoteBoundary
  | [], _ => []
  | [x], docLen => [⟨x.1, x.2.1, x.2.2, docLen⟩]
  | x :: y :: rest, docLen =>
    ⟨x.1, x.2.1, x.2.2, y.2.2⟩ :: setEnds (y :: rest) docLen

/-- `NoteParser.detect_note_boundaries` (adaptive_chunker.py,
lines 106-148). -/
def detect_note_boundaries (text : Str) : List NoteBoundary :=
  setEnds
    ((finditer_main_notes text).map (fun m =>
      (("Note ".toList) ++ m.num, pyStrip m.title, m.start)))
    text.length

/-! ### Sub-note and sub-section patterns -/

/-- A match of `sub_note_pattern`:
`(?:^|\n)\s*(\d+)\.(\d+)\s+([A-Z][A-Za-z\s,&\(\)]*)` with `re.MULTILINE`
(case-sensitive). -/
structure RawSubMatch where
  num1 : Str
  num2 : Str
  title : Str
  start : Nat
  stop : Nat
deriving DecidableEq, Repr

/-- Strict uppercase `[A-Z]` (no `IGNORECASE` on the sub-note and
sub-section patterns). -/
def isUpperAZ (c : Char) : Bool := ('A' ≤ c) && (c ≤ 'Z')

/-- Parse `\s*(\d+)\.(\d+)\s+([A-Z][A-Za-z\s,&\(\)]*)` at the head of
`t`. -/
def matchSubNoteBody (t : List Char) : Option (Str × Str × Str × Nat) :=
  let ws0 := (t.takeWhile isPySpace).length
  let t1 := t.drop ws0
  let d1 := t1.takeWhile Char.isDigit
  if d1.length = 0 then none
  else
    match t1.drop d1.length with
    | '.' :: t2 =>
      let d2 := t2.takeWhile Char.isDigit
      if d2.length = 0 then none
      else
        let t3 := t2.drop d2.length
        let ws1 := (t3.takeWhile isPySpace).length
        if ws1 = 0 then none
        else
          match t3.drop ws1 with
          | c :: _ =>
            if isUpperAZ c then
              let title := (t3.drop ws1).takeWhile isTitleClass
              some (d1, d2, title,
                ws0 + d1.length + 1 + d2.length + ws1 + title.length)
            else none
          | [] => none
    | _ => none

def matchSubNoteAt (text : Str) (i : Nat) : Option (Str × Str × Str × Nat) :=
  if noteAnchorAt text i then
    (matchSubNoteBody (text.drop i)).map
      (fun g => (g.1, g.2.1, g.2.2.1, i + g.2.2.2))
  else none

/-- The scan of `sub_note_pattern.finditer(note_text)` (same step-counter
scheme as `findMainNotes`). -/
def findSubNotes (text : Str) : Nat → Nat → List RawSubMatch
  | 0, _ => []
  | fuel + 1, p =>
    if p ≤ text.length then
      match matchSubNoteAt text p with
      | some g => ⟨g.1, g.2.1, g.2.2.1, p, g.2.2.2⟩ ::
          findSubNotes text fuel (max g.2.2.2 (p + 1))
      | none => findSubNotes text fuel (p + 1)
    else []

/-- `sub_note_pattern.finditer(note_text)`. -/
def finditer_sub_notes (text : Str) : List RawSubMatch :=
  findSubNotes text (text.length + 2) 0

/-- A match of `sub_section_pattern`:
`(?:^|\n)\s*\(([a-z])\)\s+([A-Z][A-Za-z\s,&\(\)]*)` with `re.MULTILINE`. -/
structure RawSecMatch where
  letter : Char
  title : Str
  start : Nat
  stop : Nat
deriving DecidableEq, Repr

/-- Lowercase `[a-z]`. -/
def isLowerAZ (c : Char) : Bool := ('a' ≤ c) && (c ≤ 'z')

/-- Parse `\s*\(([a-z])\)\s+([A-Z][A-Za-z\s,&\(\)]*)` at the head of
`t`. -/
def matchSubSectionBody (t : List Char) : Option (Char × Str × Nat) :=
  let ws0 := (t.takeWhile isPySpace).length
  match t.drop ws0 with
  | '(' :: l :: ')' :: t1 =>
    if isLowerAZ l then
      let ws1 := (t1.takeWhile isPySpace).length
      if ws1 = 0 then none
      else
        match t1.drop ws1 with
        | c :: _ =>
          if isUpperAZ c then
            let title := (t1.drop ws1).takeWhile isTitleClass
            some (l, title, ws0 + 3 + ws1 + title.length)
          else none
        | [] => none
    else none
  | _ => none

def matchSubSectionAt (text : Str) (i : Nat) : Option (Char × Str × Nat) :=
  if noteAnchorAt text i then
    (matchSubSectionBody (text.drop i)).map (fun g => (g.1, g.2.1, i + g.2.2))
  else none

/-- The scan of `sub_section_pattern.finditer(text)`. -/
def findSubSections (text : Str) : Nat → Nat → List RawSecMatch
  | 0, _ => []
  | fuel + 1, p =>
    if p ≤ text.length then
      match matchSubSectionAt text p with
      | some g => ⟨g.1, g.2.1, p, g.2.2⟩ ::
          findSubSections text fuel (max g.2.2 (p + 1))
      | none => findSubSections text fuel (p + 1)
    else []

/-- `sub_section_pattern.finditer(text)`. -/
def finditer_sub_sections (text : Str) : List RawSecMatch :=
  findSubSections text (text.length + 2) 0

/-! ### `parse_note_hierarchy` -/

/-- `str.replace(pat, '')` (left-to-right, non-overlapping), structural on
a step counter that always suffices. -/
def pyRemoveAll (pat : Str) : Nat → Str → Str
  | 0, s => s
  | fuel + 1, s =>
    if pat.isPrefixOf s ∧ pat ≠ [] then
      pyRemoveAll pat fuel (s.drop pat.length)
    else
      match s with
      | [] => []
      | c :: rest => c :: pyRemoveAll pat fuel rest

/-- `note_number.replace('Note ', '')` in `parse_note_hierarchy`. -/
def mainNumOf (note_number : Str) : Str :=
  pyRemoveAll ("Note ".toList) (note_number.length + 1) note_number

/-- A `sub_notes` entry of `parse_note_hierarchy`. -/
structure SubNoteEntry where
  sub_note : Str
  title : Str
  start_pos : Nat
  end_pos : Nat
deriving DecidableEq, Repr

/-- A `sub_sections` entry of `parse_note_hierarchy` (no end position is
assigned to these in the source). -/
structure SubSectionEntry where
  sub_section : Str
  title : Str
  start_pos : Nat
deriving DecidableEq, Repr

/-- The result dict of `parse_note_hierarchy`. -/
structure NoteHierarchy where
  sub_notes : List SubNoteEntry
  sub_sections : List SubSectionEntry
deriving DecidableEq, Repr

/-- The end-position fix-up loop for `sub_notes`. -/
def setSubEnds : List (Str × Str × Nat) → Nat → List SubNoteEntry
  | [], _ => []
  | [x], docLen => [⟨x.1, x.2.1, x.2.2, docLen⟩]
  | x :: y :: rest, docLen =>
    ⟨x.1, x.2.1, x.2.2, y.2.2⟩ :: setSubEnds (y :: rest) docLen

/-- `NoteParser.parse_note_hierarchy` (adaptive_chunker.py,
lines 150-216): collect sub-note matches whose first number equals the
enclosing note's number, assign end positions, and collect all sub-section
matches. -/
def parse_note_hierarchy (note_text : Str) (note_number : Str) :
    NoteHierarchy :=
  { sub_notes :=
      setSubEnds
        ((finditer_sub_notes note_text).filterMap (fun m =>
          if m.num1 = mainNumOf note_number then
            some (m.num1 ++ (".".toList) ++ m.num2, pyStrip m.title, m.start)
          else none))
        note_text.length
    sub_sections :=
      (finditer_sub_sections note_text).map (fun m =>
        ⟨('(' :: [m.letter]) ++ (")".toList),
         if m.title ≠ [] then pyStrip m.title else [], m.start⟩) }

/-! ### C4: boundary tiling -/

theorem setEnds_head_start (y : Str × Str × Nat) (r : List (Str × Str × Nat))
    (docLen : Nat) :
    ∃ e t, setEnds (y :: r) docLen = ⟨y.1, y.2.1, y.2.2, e⟩ :: t := by
  cases r with
  | nil => exact ⟨docLen, [], rfl⟩
  | cons z zs => exact ⟨z.2.2, setEnds (z :: zs) docLen, rfl⟩

theorem setEnds_spec (docLen : Nat) :
    ∀ (l : List (Str × Str × Nat)),
    List.Chain' (fun a b => a.end_pos = b.start_pos) (setEnds l docLen) ∧
    ∀ b, (setEnds l docLen).getLast? = some b → b.end_pos = docLen := by
  intro l
  induction l with
  | nil =>
    refine ⟨List.chain'_nil, fun b hb => ?_⟩
    simp [setEnds] at hb
  | cons x rest ih =>
    cases rest with
    | nil =>
      refine ⟨List.chain'_singleton _, fun b hb => ?_⟩
      have hb2 : some (⟨x.1, x.2.1, x.2.2, docLen⟩ : NoteBoundary) = some b := hb
      rcases Option.some.injEq _ _ ▸ hb2 with rfl
      rfl
    | cons y rest2 =>
      obtain ⟨ihc, ihl⟩ := ih
      constructor
      · show List.Chain' _
          (⟨x.1, x.2.1, x.2.2, y.2.2⟩ :: setEnds (y :: rest2) docLen)
        rw [List.chain'_cons']
        refine ⟨?_, ihc⟩
        intro b hb
        rcases setEnds_head_start y rest2 docLen with ⟨e, t, he⟩
        rw [he] at hb
        rcases Option.mem_some_iff.mp (by simpa using hb) with rfl
        rfl
      · intro b hb
        have hstep : setEnds (x :: y :: rest2) docLen
            = ⟨x.1, x.2.1, x.2.2, y.2.2⟩ :: setEnds (y :: rest2) docLen := rfl
        rw [hstep] at hb
        rcases setEnds_head_start y rest2 docLen with ⟨e, t, he⟩
        rw [he, List.getLast?_cons_cons, ← he] at hb
        exact ihl b hb

/-- **C4 (amended).**  When `detect_note_boundaries` returns boundaries,
consecutive boundaries tile: each boundary's end is the next one's start
and the last end is the document length.  (The first boundary's start is
the first match position, which need not be 0 — see the
counterexample.) -/
theorem claim_C4_amended_boundary_tiling (text : Str) :
    List.Chain' (fun a b => a.end_pos = b.start_pos)
      (detect_note_boundaries text) ∧
    ∀ b, (detect_note_boundaries text).getLast? = some b →
      b.end_pos = text.length := by
  unfold detect_note_boundaries
  exact setEnds_spec text.length _

/-- Counterexample to **C4** as stated: a document with one leading
non-note character has a single detected boundary starting at position 1,
not 0. -/
theorem claim_C4_counterexample :
    detect_note_boundaries ("x\nNOTE 1 - ASSETS".toList)
      = [⟨("Note 1".toList), ("ASSETS".toList), 1, 17⟩] ∧
    (1 : Nat) ≠ 0 := by
  exact ⟨by decide, by decide⟩

/-- Concrete instance for the amended C4 on a two-note document. -/
theorem claim_C4_amended_boundary_tiling_witness :
    List.Chain' (fun a b => a.end_pos = b.start_pos)
      (detect_note_boundaries ("NOTE 1 - CASH\n1.\nNOTE 2 - DEBT\n2.".toList)) ∧
    ∃ b, (detect_note_boundaries
        ("NOTE 1 - CASH\n1.\nNOTE 2 - DEBT\n2.".toList)).getLast? = some b ∧
      b.end_pos = ("NOTE 1 - CASH\n1.\nNOTE 2 - DEBT\n2.".toList).length := by
  have h := claim_C4_amended_boundary_tiling
    ("NOTE 1 - CASH\n1.\nNOTE 2 - DEBT\n2.".toList)
  refine ⟨h.1, ?_⟩
  rcases hg : (detect_note_boundaries
      ("NOTE 1 - CASH\n1.\nNOTE 2 - DEBT\n2.".toList)).getLast? with _ | b
  · exact absurd hg (by decide)
  · exact ⟨b, rfl, h.2 b hg⟩

/-! ### C9: sub-note main-number filtering -/

theorem setSubEnds_map (docLen : Nat) :
    ∀ (l : List (Str × Str × Nat)),
    (setSubEnds l docLen).map (fun e => (e.sub_note, e.start_pos))
      = l.map (fun x => (x.1, x.2.2)) := by
  intro l
  induction l with
  | nil => rfl
  | cons x rest ih =>
    cases rest with
    | nil => rfl
    | cons y rest2 =>
      show (x.1, x.2.2) :: (setSubEnds (y :: rest2) docLen).map _ = _
      rw [ih]
      rfl

theorem filterMap_guard {α β : Type} (p : α → Prop) [DecidablePred p]
    (f : α → β) (l : List α) :
    l.filterMap (fun m => if p m then some (f m) else none)
      = (l.filter (fun m => decide (p m))).map f := by
  induction l with
  | nil => rfl
  | cons x rest ih =>
    by_cases hx : p x
    · rw [List.filterMap_cons, List.filter_cons]
      simp only [if_pos hx, decide_eq_true hx]
      rw [ih]
      rfl
    · rw [List.filterMap_cons, List.filter_cons]
      simp only [if_neg hx, decide_eq_false hx]
      exact ih

/-- **C9.**  Sub-note acceptance: an entry is recorded in a note's
hierarchy exactly for the sub-note matches whose main number equals the
enclosing note's number; every recorded entry originates from such a
match, so a marker with a different main number is never recorded. -/
theorem claim_C9_subnote_main_number_filter (note_text note_number : Str) :
    (parse_note_hierarchy note_text note_number).sub_notes.map
        (fun e => (e.sub_note, e.start_pos))
      = ((finditer_sub_notes note_text).filter
          (fun m => decide (m.num1 = mainNumOf note_number))).map
          (fun m => (m.num1 ++ (".".toList) ++ m.num2, m.start)) ∧
    ∀ e ∈ (parse_note_hierarchy note_text note_number).sub_notes,
      (finditer_sub_notes note_text).any (fun m =>
        decide (m.num1 = mainNumOf note_number) &&
        decide (e.sub_note = m.num1 ++ (".".toList) ++ m.num2) &&
        decide (e.start_pos = m.start)) = true := by
  have hmain :
      (parse_note_hierarchy note_text note_number).sub_notes.map
          (fun e => (e.sub_note, e.start_pos))
        = ((finditer_sub_notes note_text).filter
            (fun m => decide (m.num1 = mainNumOf note_number))).map
            (fun m => (m.num1 ++ (".".toList) ++ m.num2, m.start)) := by
    show (setSubEnds ((finditer_sub_notes note_text).filterMap _) _).map _ = _
    rw [setSubEnds_map]
    rw [show ((finditer_sub_notes note_text).filterMap (fun m =>
        if m.num1 = mainNumOf note_number then
          some (m.num1 ++ (".".toList) ++ m.num2, pyStrip m.title, m.start)
        else none))
      = ((finditer_sub_notes note_text).filter
          (fun m => decide (m.num1 = mainNumOf note_number))).map
          (fun m => (m.num1 ++ (".".toList) ++ m.num2, pyStrip m.title, m.start))
      from filterMap_guard _ _ _]
    rw [List.map_map]
    rfl
  refine ⟨hmain, fun e he => ?_⟩
  have hmem : (e.sub_note, e.start_pos)
      ∈ ((finditer_sub_notes note_text).filter
          (fun m => decide (m.num1 = mainNumOf note_number))).map
          (fun m => (m.num1 ++ (".".toList) ++ m.num2, m.start)) := by
    rw [← hmain]
    exact List.mem_map_of_mem _ he
  rcases List.mem_map.mp hmem with ⟨m, hm, hpair⟩
  rcases List.mem_filter.mp hm with ⟨hmf, hmp⟩
  refine List.any_eq_true.mpr ⟨m, hmf, ?_⟩
  have h1 : e.sub_note = m.num1 ++ (".".toList) ++ m.num2 :=
    (congrArg Prod.fst hpair).symm
  have h2 : e.start_pos = m.start := (congrArg Prod.snd hpair).symm
  simp [h1, h2, of_decide_eq_true hmp]

/-- Concrete instance for C9: in note 5's text, markers `5.1` and `5.2`
are recorded and the stray `6.1` is not. -/
theorem claim_C9_subnote_main_number_filter_witness :
    (parse_note_hierarchy
        (("NOTE 5 - THINGS\n\n5.1 Alpha Title\n\nsome text.\n\n5.2 Beta Title\n\nmore text.\n\n6.1 Gamma Title\n\nstray.").toList)
        ("Note 5".toList)).sub_notes.map (fun e => (e.sub_note, e.start_pos))
      = ((finditer_sub_notes
          (("NOTE 5 - THINGS\n\n5.1 Alpha Title\n\nsome text.\n\n5.2 Beta Title\n\nmore text.\n\n6.1 Gamma Title\n\nstray.").toList)).filter
          (fun m => decide (m.num1 = mainNumOf ("Note 5".toList)))).map
          (fun m => (m.num1 ++ (".".toList) ++ m.num2, m.start)) ∧
    (finditer_sub_notes
        (("NOTE 5 - THINGS\n\n5.1 Alpha Title\n\nsome text.\n\n5.2 Beta Title\n\nmore text.\n\n6.1 Gamma Title\n\nstray.").toList)).any
      (fun m =>
        decide (m.num1 = mainNumOf ("Note 5".toList)) &&
        decide ((SubNoteEntry.mk ("5.1".toList)
            ("Alpha Title\n\nsome text".toList) 15 44).sub_note
          = m.num1 ++ (".".toList) ++ m.num2) &&
        decide ((SubNoteEntry.mk ("5.1".toList)
            ("Alpha Title\n\nsome text".toList) 15 44).start_pos = m.start))
      = true := by
  have h := claim_C9_subnote_main_number_filter
    (("NOTE 5 - THINGS\n\n5.1 Alpha Title\n\nsome text.\n\n5.2 Beta Title\n\nmore text.\n\n6.1 Gamma Title\n\nstray.").toList)
    ("Note 5".toList)
  exact ⟨h.1, h.2 _ (by decide)⟩

/-! ### C5: material provenance of note chunks

`PiecedFrom base s` says `s` is assembled, left to right, from contiguous
substrings of `base` and whitespace characters — the shape of every text
the note chunker builds from a note's slice (slices at line boundaries,
`strip`s, and re-joins with `' '`/`'\n'`/`'\n\n'` separators). -/

inductive PiecedFrom (base : Str) : Str → Prop
  | nil : PiecedFrom base []
  | piece (s t : Str) : List.IsInfix s base → PiecedFrom base t →
      PiecedFrom base (s ++ t)
  | ws (c : Char) (t : Str) : isPySpace c = true → PiecedFrom base t →
      PiecedFrom base (c :: t)

theorem PiecedFrom.append {base a b : Str} (ha : PiecedFrom base a)
    (hb : PiecedFrom base b) : PiecedFrom base (a ++ b) := by
  induction ha with
  | nil => exact hb
  | piece s t hs _ ih =>
    rw [List.append_assoc]
    exact PiecedFrom.piece s (t ++ b) hs ih
  | ws c t hc _ ih => exact PiecedFrom.ws c (t ++ b) hc ih

theorem PiecedFrom.of_infix {base s : Str} (h : List.IsInfix s base) :
    PiecedFrom base s := by
  have := PiecedFrom.piece s [] h (PiecedFrom.nil)
  simpa using this

theorem PiecedFrom.of_all_ws {base : Str} :
    ∀ {s : Str}, (∀ c ∈ s, isPySpace c = true) → PiecedFrom base s := by
  intro s
  induction s with
  | nil => intro _; exact PiecedFrom.nil
  | cons c t ih =>
    intro h
    exact PiecedFrom.ws c t (h c (List.mem_cons_self c t))
      (ih (fun x hx => h x (List.mem_cons_of_mem c hx)))

theorem infix_append_decomp :
    ∀ (s t u : Str), List.IsInfix u (s ++ t) →
    List.IsInfix u s ∨ List.IsInfix u t ∨
    ∃ u1 u2, u = u1 ++ u2 ∧ List.IsSuffix u1 s ∧ List.IsPrefix u2 t := by
  intro s
  induction s with
  | nil =>
    intro t u h
    exact Or.inr (Or.inl (by simpa using h))
  | cons c s ih =>
    intro t u h
    rw [List.cons_append] at h
    rcases List.infix_cons_iff.mp h with hpre | hinf
    · cases u with
      | nil => exact Or.inl List.nil_infix
      | cons a u =>
        have hac : a = c := by
          rcases hpre with ⟨w, hw⟩
          exact (List.cons_eq_cons.mp hw.symm).1.symm
        rw [hac] at hpre ⊢
        have hu : u <+: s ++ t := (List.prefix_cons_inj c).mp hpre
        by_cases hlen : u.length ≤ s.length
        · have : u <+: s :=
            List.prefix_of_prefix_length_le hu (List.prefix_append s t) hlen
          exact Or.inl ((List.prefix_cons_inj c).mpr this).isInfix
        · have hsu : s <+: u :=
            List.prefix_of_prefix_length_le (List.prefix_append s t) hu
              (by omega)
          rcases hsu with ⟨r, hr⟩
          have hrt : r <+: t := by
            rcases hu with ⟨w, hw⟩
            rw [← hr, List.append_assoc] at hw
            exact ⟨w, (List.append_cancel_left hw)⟩
          refine Or.inr (Or.inr ⟨c :: s, r, ?_, List.suffix_refl _, hrt⟩)
          rw [← hr]
          rfl
    · rcases ih t u hinf with h1 | h2 | ⟨u1, u2, he, hs1, hp2⟩
      · exact Or.inl (List.infix_cons h1)
      · exact Or.inr (Or.inl h2)
      · exact Or.inr (Or.inr ⟨u1, u2, he,
          hs1.trans (List.suffix_cons c s), hp2⟩)

theorem PiecedFrom.infix_closed {base : Str} :
    ∀ {v u : Str}, PiecedFrom base v → List.IsInfix u v → PiecedFrom base u := by
  intro v u hv
  induction hv generalizing u with
  | nil =>
    intro hu
    rw [List.infix_nil.mp hu]
    exact PiecedFrom.nil
  | piece s t hs ht ih =>
    intro hu
    rcases infix_append_decomp s t u hu with h1 | h2 | ⟨u1, u2, rfl, hs1, hp2⟩
    · exact PiecedFrom.of_infix (h1.trans hs)
    · exact ih h2
    · exact PiecedFrom.append (PiecedFrom.of_infix (hs1.isInfix.trans hs))
        (ih hp2.isInfix)
  | ws c t hc ht ih =>
    intro hu
    rcases List.infix_cons_iff.mp hu with hpre | hinf
    · cases u with
      | nil => exact PiecedFrom.nil
      | cons a u =>
        have hac : a = c := by
          rcases hpre with ⟨w, hw⟩
          exact (List.cons_eq_cons.mp hw.symm).1.symm
        rw [hac]
        rcases hpre with ⟨w, hw⟩
        have : u <+: t := by
          rw [hac] at hw
          exact ⟨w, (List.cons_eq_cons.mp hw.symm).2.symm⟩
        exact PiecedFrom.ws c u hc (ih this.isInfix)
    · exact ih hinf

/-! ### `detect_content_types` -/

/-- The result dict of `NoteParser.detect_content_types`
(adaptive_chunker.py, lines 230-287). -/
structure ContentAnalysis where
  has_subjective : Bool
  has_objective : Bool
  content_types : List Str
deriving DecidableEq, Repr

/-- Python `\w` (ASCII range). -/
def isWordChar (c : Char) : Bool := c.isAlphanum || c = '_'

/-- Is position `j` of `text` a word character (out of range counts as
non-word)? -/
def wordAtPos (text : Str) (j : Nat) : Bool :=
  match text[j]? with
  | some c => isWordChar c
  | none => false

/-- A `\b` word boundary at position `j`. -/
def boundaryAt (text : Str) (j : Nat) : Bool :=
  (if j = 0 then false else wordAtPos text (j - 1)) != wordAtPos text j

/-- Case-insensitive literal match of `phrase` at position `i`. -/
def phraseMatchAt (text phrase : Str) (i : Nat) : Bool :=
  pyLower ((text.drop i).take phrase.length) = phrase

/-- `re.search(r'\b<phrase>\b', text, re.IGNORECASE)` for a literal
phrase. -/
def simpleKeywordSearch (text phrase : Str) : Bool :=
  (List.range (text.length + 1)).any (fun i =>
    boundaryAt text i && phraseMatchAt text phrase i &&
    boundaryAt text (i + phrase.length))

/-- `re.search(r'\b<phrase>s?\b', text, re.IGNORECASE)`: with a word
character after the optional `s` the boundary can only sit after the `s`,
so the greedy optional is exact. -/
def optSKeywordSearch (text phrase : Str) : Bool :=
  (List.range (text.length + 1)).any (fun i =>
    boundaryAt text i && phraseMatchAt text phrase i &&
    (if pyLower ((text.drop (i + phrase.length)).take 1) = ("s".toList) then
      boundaryAt text (i + phrase.length + 1)
    else boundaryAt text (i + phrase.length)))

/-- `re.search(r'\bmanagement\s+(?:is of the view|believes|considers)\b',
text, re.IGNORECASE)`. -/
def managementSearch (text : Str) : Bool :=
  (List.range (text.length + 1)).any (fun i =>
    boundaryAt text i && phraseMatchAt text ("management".toList) i &&
    (let j := i + 10
     let ws := ((text.drop j).takeWhile isPySpace).length
     decide (1 ≤ ws) &&
     (let k := j + ws
      (phraseMatchAt text ("is of the view".toList) k && boundaryAt text (k + 14)) ||
      (phraseMatchAt text ("believes".toList) k && boundaryAt text (k + 8)) ||
      (phraseMatchAt text ("considers".toList) k && boundaryAt text (k + 9)))))

/-- The remainder check `\s*[\d,]` after a currency symbol (the optional
decimal and unit groups of the pattern cannot fail). -/
def currencyTailAt (t : List Char) : Bool :=
  match t.drop ((t.takeWhile isPySpace).length) with
  | c :: _ => c.isDigit || c = ','
  | [] => false

/-- `re.search(r'(?:INR|Rs\.|₹)\s*[\d,]+(?:\.\d+)?(?:\s*(?:lakhs?|crores?|millions?|billions?))?', text, re.IGNORECASE)`:
only existence matters, which reduces to a currency marker followed by
optional whitespace and a digit-or-comma. -/
def currency_search (text : Str) : Bool :=
  (List.range (text.length + 1)).any (fun i =>
    let t := text.drop i
    (pyLower (t.take 3) = ("inr".toList) && currencyTailAt (t.drop 3)) ||
    (pyLower (t.take 3) = ("rs.".toList) && currencyTailAt (t.drop 3)) ||
    (t.take 1 = ("₹".toList) && currencyTailAt (t.drop 1)))

/-- `NoteParser.detect_content_types` (adaptive_chunker.py,
lines 230-287). -/
def detect_content_types (text : Str) : ContentAnalysis :=
  let tableHit := (pyLines text).any isTableRowLine
  let currencyHit := currency_search text
  let subjHit :=
    simpleKeywordSearch text ("has been determined".toList) ||
    simpleKeywordSearch text ("based on".toList) ||
    simpleKeywordSearch text ("in accordance with".toList) ||
    managementSearch text ||
    optSKeywordSearch text ("assumption".toList) ||
    optSKeywordSearch text ("estimate".toList) ||
    simpleKeywordSearch text ("judgement".toList) ||
    optSKeywordSearch text ("require".toList)
  let paraHit := decide (List.IsInfix ("\n\n".toList) text)
  { has_subjective := subjHit || paraHit
    has_objective := tableHit || currencyHit
    content_types :=
      (if tableHit then [("table".toList)] else [])
      ++ (if currencyHit then [("numerical".toList)] else [])
      ++ (if subjHit || paraHit then [("paragraph".toList)] else []) }

/-! ### Note-level chunking -/

/-- Python slicing `s[a:b]` (for `a ≤ b`). -/
def pySlice (s : Str) (a b : Nat) : Str := (s.drop a).take (b - a)

/-- The context header `f"{note_number} - {note_title}\n\n"` prepended to
sub-chunks of a large note. -/
def note_header (note_number note_title : Str) : Str :=
  note_number ++ (" - ".toList) ++ note_title ++ ("\n\n".toList)

/-- End fix-up for the sub-section list of `_chunk_note_subsections`. -/
def setPairEnds : List (Str × Nat) → Nat → List (Str × Nat × Nat)
  | [], _ => []
  | [x], L => [(x.1, x.2, L)]
  | x :: y :: r, L => (x.1, x.2, y.2) :: setPairEnds (y :: r) L

/-- `_chunk_note_subsections` (adaptive_chunker.py, lines 587-680). -/
def chunk_note_subsections (maxSize : Nat) (text parent_header
    note_number sub_note : Str) (page_numbers : List Int) : List Chunk :=
  let subs := setPairEnds
    ((finditer_sub_sections text).map (fun m =>
      (('(' :: [m.letter]) ++ (")".toList), m.start))) text.length
  if subs ≠ [] then
    subs.map (fun si =>
      let sub_sec_text := pyStrip (pySlice text si.2.1 si.2.2)
      let full := parent_header ++ sub_sec_text
      let ca := detect_content_types sub_sec_text
      { text := full, chunk_type := ("note_section".toList),
        page_numbers := page_numbers, char_count := full.length,
        is_critical := true, note_number := some note_number,
        sub_note := some sub_note, sub_section := some si.1,
        content_types := some ca.content_types,
        has_subjective := ca.has_subjective,
        has_objective := ca.has_objective,
        hierarchy_level := 2, parent_note := some note_number })
  else
    if maxSize * 2 < (parent_header ++ text).length then
      (chunk_paragraph maxSize text (page_numbers.headD 1)).map (fun pc =>
        { pc with
          note_number := some note_number
          sub_note := some sub_note
          parent_note := some note_number
          hierarchy_level := 2
          chunk_type := ("note_paragraph".toList) })
    else
      let ca := detect_content_types text
      [{ text := parent_header ++ text, chunk_type := ("note_section".toList),
         page_numbers := page_numbers,
         char_count := (parent_header ++ text).length,
         is_critical := true, note_number := some note_number,
         sub_note := some sub_note,
         content_types := some ca.content_types,
         has_subjective := ca.has_subjective,
         has_objective := ca.has_objective,
         hierarchy_level := 1, parent_note := some note_number }]

/-- A flushed `note_mixed` chunk of `_chunk_large_note_by_elements` (the
content analysis runs on the unstripped accumulated text). -/
def mixedChunk (note_number note_title : Str) (page_numbers : List Int)
    (cur : Str) : Chunk :=
  let ca := detect_content_types cur
  { text := pyStrip cur, chunk_type := ("note_mixed".toList),
    page_numbers := page_numbers, char_count := (pyStrip cur).length,
    is_critical := true, note_number := some note_number,
    note_title := some note_title,
    content_types := some ca.content_types,
    has_subjective := ca.has_subjective, has_objective := ca.has_objective,
    hierarchy_level := 0, parent_note := some note_number }

/-- The greedy element-packing loop of `_chunk_large_note_by_elements`
(adaptive_chunker.py, lines 708-758), including the final flush. -/
def chunkLargeLoop (maxSize : Nat) (note_header_ note_number note_title : Str)
    (page_numbers : List Int) (chunks : List Chunk) (cur : Str)
    (hasElems : Bool) : List Element → List Chunk
  | [] =>
    if pyStrip cur ≠ pyStrip note_header_ then
      chunks ++ [mixedChunk note_number note_title page_numbers cur]
    else chunks
  | el :: rest =>
    if maxSize < cur.length + el.text.length ∧ hasElems then
      chunkLargeLoop maxSize note_header_ note_number note_title page_numbers
        (chunks ++ [mixedChunk note_number note_title page_numbers cur])
        (note_header_ ++ ("\n\n".toList) ++ el.text) true rest
    else
      chunkLargeLoop maxSize note_header_ note_number note_title page_numbers
        chunks (cur ++ ("\n\n".toList) ++ el.text) true rest

/-- `_chunk_large_note_by_elements` (adaptive_chunker.py,
lines 682-769). -/
def chunk_large_note_by_elements (maxSize : Nat)
    (note_text note_header_ note_number note_title : Str)
    (page_numbers : List Int) : List Chunk :=
  let res := chunkLargeLoop maxSize note_header_ note_number note_title
    page_numbers [] note_header_ false
    (extract_elements note_text (page_numbers.headD 1))
  if res = [] then
    [{ text := note_header_ ++ note_text, chunk_type := ("note_complete".toList),
       page_numbers := page_numbers,
       char_count := (note_header_ ++ note_text).length,
       is_critical := true, note_number := some note_number,
       note_title := some note_title, hierarchy_level := 0 }]
  else res

/-- `_chunk_note` (adaptive_chunker.py, lines 478-585). -/
def chunk_note (maxSize : Nat) (note_text note_number note_title : Str)
    (page_numbers : List Int) : List Chunk :=
  let clean := pyStrip note_text
  if clean.length ≤ maxSize then
    let ca := detect_content_types clean
    [{ text := clean, chunk_type := ("note_complete".toList),
       page_numbers := page_numbers, char_count := clean.length,
       is_critical := true, note_number := some note_number,
       note_title := some note_title,
       content_types := some ca.content_types,
       has_subjective := ca.has_subjective, has_objective := ca.has_objective,
       hierarchy_level := 0, is_complete_note := true }]
  else
    let hierarchy := parse_note_hierarchy clean note_number
    let hdr := note_header note_number note_title
    if hierarchy.sub_notes ≠ [] then
      (hierarchy.sub_notes.map (fun sn =>
        let sub_note_text := pyStrip (pySlice clean sn.start_pos sn.end_pos)
        let full := hdr ++ sub_note_text
        if maxSize < full.length then
          chunk_note_subsections maxSize sub_note_text hdr note_number
            sn.sub_note page_numbers
        else
          let sca := detect_content_types sub_note_text
          [{ text := full, chunk_type := ("note_section".toList),
             page_numbers := page_numbers, char_count := full.length,
             is_critical := true, note_number := some note_number,
             sub_note := some sn.sub_note, note_title := some note_title,
             content_types := some sca.content_types,
             has_subjective := sca.has_subjective,
             has_objective := sca.has_objective,
             hierarchy_level := 1, parent_note := some note_number }])).flatten
    else
      chunk_large_note_by_elements maxSize clean hdr note_number note_title
        page_numbers

/-! ### Document-level note-aware chunking -/

/-- Step 1 of `_chunk_document_note_aware`: concatenate pages with the
`"\n\n"` separator. -/
def buildFullText (pages : List (Int × Str)) : Str :=
  pages.foldl (fun acc p => acc ++ p.2 ++ ("\n\n".toList)) []

/-- The `page_boundaries` records `(page_num, start_pos, end_pos)`. -/
def pageBoundariesAux (off : Nat) : List (Int × Str) → List (Int × Nat × Nat)
  | [] => []
  | (pn, t) :: rest =>
    (pn, off, off + t.length) :: pageBoundariesAux (off + t.length + 2) rest

def pageBoundaries (pages : List (Int × Str)) : List (Int × Nat × Nat) :=
  pageBoundariesAux 0 pages

/-- Pages overlapping the range `[s, e)`. -/
def overlappingPages (pbs : List (Int × Nat × Nat)) (s e : Nat) : List Int :=
  pbs.filterMap (fun pi =>
    if ¬ (e ≤ pi.2.1 ∨ pi.2.2 ≤ s) then some pi.1 else none)

/-- The element-based (non-note) chunking of a text, as used for whole
pages and for non-note gaps. -/
def elementChunks (maxSize : Nat) (text : Str) (page : Int) : List Chunk :=
  ((extract_elements text page).map (fun el =>
    chunk_element maxSize el page)).flatten

/-- The gap ranges not covered by any note (before the first note, between
notes, after the last note), as collected from the boundary list. -/
def nonNoteRanges (nbs : List NoteBoundary) (docLen : Nat) : List (Nat × Nat) :=
  (match nbs.head? with
   | some b => if 0 < b.start_pos then [(0, b.start_pos)] else []
   | none => []) ++
  (let rec gaps : List NoteBoundary → List (Nat × Nat)
    | [] => []
    | [_] => []
    | a :: b :: rest =>
      (if a.end_pos < b.start_pos then [(a.end_pos, b.start_pos)] else []) ++
        gaps (b :: rest)
   gaps nbs) ++
  (match nbs.getLast? with
   | some b => if b.end_pos < docLen then [(b.end_pos, docLen)] else []
   | none => [])

/-- Chunking of one non-note range (adaptive_chunker.py, lines 455-474). -/
def gapChunks (maxSize : Nat) (full_text : Str) (pbs : List (Int × Nat × Nat))
    (r : Nat × Nat) : List Chunk :=
  let t := pyStrip (pySlice full_text r.1 r.2)
  if t = [] then []
  else
    let sp := overlappingPages pbs r.1 r.2
    let sp := if sp = [] then [(1 : Int)] else sp
    elementChunks maxSize t (sp.headD 1)

/-- `_chunk_document_note_aware` (adaptive_chunker.py, lines 372-476). -/
def chunk_document_note_aware (maxSize : Nat) (pages : List (Int × Str)) :
    List Chunk :=
  let full_text := buildFullText pages
  let pbs := pageBoundaries pages
  let nbs := detect_note_boundaries full_text
  if nbs = [] then
    (pages.map (fun p => elementChunks maxSize p.2 p.1)).flatten
  else
    (nbs.map (fun b =>
      chunk_note maxSize (pySlice full_text b.start_pos b.end_pos)
        b.note_number b.note_title
        (overlappingPages pbs b.start_pos b.end_pos))).flatten
    ++ ((nonNoteRanges nbs full_text.length).map
          (gapChunks maxSize full_text pbs)).flatten

/-- `AdaptiveChunker.chunk_document` (adaptive_chunker.py,
lines 339-370). -/
def chunk_document (maxSize : Nat) (enable_note_aware : Bool)
    (pages : List (Int × Str)) : List Chunk :=
  if enable_note_aware then chunk_document_note_aware maxSize pages
  else (pages.map (fun p => elementChunks maxSize p.2 p.1)).flatten

/-! ### C5: provenance lemmas for the chunk-assembly pipeline -/

theorem pyLstrip_suffix (s : Str) : List.IsSuffix (pyLstrip s) s :=
  List.dropWhile_suffix isPySpace

theorem pyRstrip_front (s : Str) : List.IsPrefix (pyRstrip s) s := by
  have h : List.IsSuffix ((pyRstrip s).reverse) s.reverse := by
    unfold pyRstrip
    rw [List.reverse_reverse]
    exact List.dropWhile_suffix isPySpace
  exact List.reverse_suffix.mp h

theorem pyStrip_sub (s : Str) : List.IsInfix (pyStrip s) s :=
  (pyRstrip_front (pyLstrip s)).isInfix.trans (pyLstrip_suffix s).isInfix

theorem pySlice_sub (s : Str) (a b : Nat) : List.IsInfix (pySlice s a b) s :=
  (List.take_prefix _ _).isInfix.trans (List.drop_suffix a s).isInfix

/-- `PiecedFrom` is transitive: material pieced from a pieced string is
pieced from the original base. -/
theorem PiecedFrom.trans {b t x : Str} (hbt : PiecedFrom b t)
    (htx : PiecedFrom t x) : PiecedFrom b x := by
  induction htx with
  | nil => exact PiecedFrom.nil
  | piece s u hs _ ih => exact PiecedFrom.append (hbt.infix_closed hs) ih
  | ws c u hc _ ih => exact PiecedFrom.ws c u hc ih

/-- Every piece produced by the sentence scanner is a contiguous run of
the scanned text. -/
theorem splitSentencesAux_sub :
    ∀ (rest : List Char) (skipping : Bool) (rcur : List Char),
      (skipping = true → rcur = []) →
      ∀ s ∈ splitSentencesAux skipping rcur rest,
        List.IsInfix s (rcur.reverse ++ rest) := by
  intro rest
  induction rest with
  | nil =>
    intro skipping rcur _ s hs
    simp only [splitSentencesAux, List.mem_singleton] at hs
    subst hs
    simp
  | cons c rest ih =>
    intro skipping rcur hskip s hs
    rw [splitSentencesAux] at hs
    split at hs
    · have hsk : skipping = true := by
        rename_i h1
        exact (Bool.and_eq_true _ _).mp h1 |>.1
      have hr : rcur = [] := hskip hsk
      subst hr
      have := ih true [] (fun _ => rfl) s hs
      simp only [List.reverse_nil, List.nil_append] at this ⊢
      exact List.infix_cons this
    · split at hs
      · rcases List.mem_cons.mp hs with h | h
        · subst h
          exact (List.prefix_append _ _).isInfix
        · have := ih true [] (fun _ => rfl) s h
          simp only [List.reverse_nil, List.nil_append] at this
          exact (List.infix_cons this).trans (List.suffix_append _ _).isInfix
      · have := ih false (c :: rcur) (by simp) s hs
        rw [List.reverse_cons, List.append_assoc, List.singleton_append] at this
        exact this

theorem splitSentences_sub (text : Str) :
    ∀ s ∈ splitSentences text, List.IsInfix s text := by
  have := splitSentencesAux_sub text false [] (by simp)
  simpa using this

theorem lastSentenceFor_sub {text : Str} {sentences : List Str}
    (hsent : ∀ s ∈ sentences, List.IsInfix s text) (s : Str) :
    List.IsInfix (lastSentenceFor sentences s) text := by
  rcases lastSentenceFor_mem_or_nil sentences s with h | h
  · rw [h]; exact List.nil_infix
  · exact hsent _ h

theorem flushPara_pieced {text : Str} {page : Int} {chunks : List Chunk}
    {cur : Str}
    (hch : ∀ c ∈ chunks, PiecedFrom text c.text ∧ c.note_number = none)
    (hcur : PiecedFrom text cur) :
    ∀ c ∈ flushPara page chunks cur,
      PiecedFrom text c.text ∧ c.note_number = none := by
  intro c hc
  unfold flushPara at hc
  split at hc
  · exact hch c hc
  · rcases List.mem_append.mp hc with h | h
    · exact hch c h
    · simp only [List.mem_singleton] at h
      subst h
      exact ⟨hcur.infix_closed (pyStrip_sub cur), rfl⟩

theorem wsChar_space : isPySpace ' ' = true := by decide

theorem wsChar_nl : isPySpace '\n' = true := by decide

theorem pieced_single_ws {base : Str} {c : Char} (h : isPySpace c = true) :
    PiecedFrom base [c] :=
  PiecedFrom.ws c [] h PiecedFrom.nil

theorem chunkParagraphLoop_pieced (maxSize : Nat) (page : Int)
    (text : Str) (sentences : List Str)
    (hsent : ∀ s ∈ sentences, List.IsInfix s text) :
    ∀ (rest : List Str), (∀ s ∈ rest, List.IsInfix s text) →
    ∀ (chunks : List Chunk) (cur : Str) (curSize : Nat),
      (∀ c ∈ chunks, PiecedFrom text c.text ∧ c.note_number = none) →
      PiecedFrom text cur →
      ∀ c ∈ chunkParagraphLoop maxSize page sentences chunks cur curSize rest,
        PiecedFrom text c.text ∧ c.note_number = none := by
  intro rest
  induction rest with
  | nil =>
    intro _ chunks cur curSize hch hcur c hc
    rw [chunkParagraphLoop] at hc
    exact flushPara_pieced hch hcur c hc
  | cons s rest ih =>
    intro hrest chunks cur curSize hch hcur c hc
    have hs : List.IsInfix s text := hrest s (List.mem_cons_self s rest)
    have hrest' : ∀ x ∈ rest, List.IsInfix x text :=
      fun x hx => hrest x (List.mem_cons_of_mem s hx)
    rw [chunkParagraphLoop] at hc
    split at hc
    · exact ih hrest' chunks _ _ hch
        ((hcur.append (PiecedFrom.of_infix hs)).append
          (pieced_single_ws wsChar_space)) c hc
    · split at hc
      · exact ih hrest' _ _ _ (flushPara_pieced hch hcur)
          ((PiecedFrom.of_infix hs).append (pieced_single_ws wsChar_space))
          c hc
      · exact ih hrest' _ _ _ (flushPara_pieced hch hcur)
          ((((PiecedFrom.of_infix (lastSentenceFor_sub hsent s)).append
            (pieced_single_ws wsChar_space)).append
              (PiecedFrom.of_infix hs)).append
                (pieced_single_ws wsChar_space)) c hc

theorem chunk_paragraph_pieced (maxSize : Nat) (text : Str) (page : Int) :
    ∀ c ∈ chunk_paragraph maxSize text page,
      PiecedFrom text c.text ∧ c.note_number = none := by
  intro c hc
  unfold chunk_paragraph at hc
  split at hc
  · simp only [List.mem_singleton] at hc
    subst hc
    exact ⟨PiecedFrom.of_infix (List.infix_refl text), rfl⟩
  · exact chunkParagraphLoop_pieced maxSize page text (splitSentences text)
      (splitSentences_sub text) (splitSentences text)
      (splitSentences_sub text) [] [] 0 (by simp) PiecedFrom.nil c hc

theorem flushList_none {page : Int} {chunks : List Chunk} {cur : Str}
    (hch : ∀ c ∈ chunks, c.note_number = none) :
    ∀ c ∈ flushList page chunks cur, c.note_number = none := by
  intro c hc
  unfold flushList at hc
  split at hc
  · exact hch c hc
  · rcases List.mem_append.mp hc with h | h
    · exact hch c h
    · simp only [List.mem_singleton] at h
      subst h
      rfl

theorem chunkListLoop_none (maxSize : Nat) (page : Int) :
    ∀ (items : List Str) (chunks : List Chunk) (cur : Str) (curSize : Nat),
      (∀ c ∈ chunks, c.note_number = none) →
      ∀ c ∈ chunkListLoop maxSize page chunks cur curSize items,
        c.note_number = none := by
  intro items
  induction items with
  | nil =>
    intro chunks cur curSize hch c hc
    rw [chunkListLoop] at hc
    exact flushList_none hch c hc
  | cons it rest ih =>
    intro chunks cur curSize hch c hc
    rw [chunkListLoop] at hc
    split at hc
    · exact ih chunks _ _ hch c hc
    · exact ih _ _ _ (flushList_none hch) c hc

theorem chunk_list_none (maxSize : Nat) (text : Str) (page : Int) :
    ∀ c ∈ chunk_list maxSize text page, c.note_number = none := by
  intro c hc
  unfold chunk_list at hc
  split at hc
  · simp only [List.mem_singleton] at hc
    subst hc
    rfl
  · exact chunkListLoop_none maxSize page (listItems text) [] [] 0
      (by simp) c hc

/-- Chunks of the element-level chunker carry no note tag: only the
note-processing path of `_chunk_document_note_aware` sets
`note_number`. -/
theorem chunk_element_none (maxSize : Nat) (el : Element) (page : Int) :
    ∀ c ∈ chunk_element maxSize el page, c.note_number = none := by
  intro c hc
  simp only [chunk_element] at hc
  repeat' split at hc
  all_goals
    first
      | (simp only [List.mem_singleton] at hc; subst hc; rfl)
      | exact chunk_list_none maxSize el.text page c hc
      | exact (chunk_paragraph_pieced maxSize el.text page c hc).2

theorem splitBlankAux_sub (text : Str) :
    ∀ (fuel start i : Nat), ∀ s ∈ splitBlankAux text fuel start i,
      List.IsInfix s text := by
  intro fuel
  induction fuel with
  | zero =>
    intro start i s hs
    simp only [splitBlankAux, List.mem_singleton] at hs
    subst hs
    exact (List.drop_suffix start text).isInfix
  | succ fuel ih =>
    intro start i s hs
    rw [splitBlankAux] at hs
    split at hs
    · split at hs
      · rcases List.mem_cons.mp hs with h | h
        · subst h
          exact (List.take_prefix _ _).isInfix.trans
            (List.drop_suffix start text).isInfix
        · exact ih _ _ s h
      · exact ih _ _ s hs
    · simp only [List.mem_singleton] at hs
      subst hs
      exact (List.drop_suffix start text).isInfix

theorem splitBlank_sub (text : Str) :
    ∀ s ∈ splitBlank text, List.IsInfix s text :=
  fun s hs => splitBlankAux_sub text (text.length + 1) 0 0 s hs

theorem extract_elements_sub (text : Str) (page : Int) :
    ∀ el ∈ extract_elements text page, List.IsInfix el.text text := by
  intro el hel
  unfold extract_elements at hel
  rcases List.mem_filterMap.mp hel with ⟨sec, hsec, hsome⟩
  split at hsome
  · exact absurd hsome (by simp)
  · have he : el = ⟨classify_element_type sec, pyStrip sec, page⟩ :=
      (Option.some.inj hsome).symm
    subst he
    exact (pyStrip_sub sec).trans (splitBlank_sub text sec hsec)

theorem elementChunks_none (maxSize : Nat) (text : Str) (page : Int) :
    ∀ c ∈ elementChunks maxSize text page, c.note_number = none := by
  intro c hc
  unfold elementChunks at hc
  rcases List.mem_flatten.mp hc with ⟨l, hl, hcl⟩
  rcases List.mem_map.mp hl with ⟨el, _, rfl⟩
  exact chunk_element_none maxSize el page c hcl

theorem gapChunks_none (maxSize : Nat) (full_text : Str)
    (pbs : List (Int × Nat × Nat)) (r : Nat × Nat) :
    ∀ c ∈ gapChunks maxSize full_text pbs r, c.note_number = none := by
  intro c hc
  simp only [gapChunks] at hc
  split at hc
  · exact absurd hc (by simp)
  · exact elementChunks_none maxSize _ _ c hc

theorem chunkLargeLoop_pieced (maxSize : Nat) (base nh nn nt : Str)
    (pgs : List Int) (hh : PiecedFrom base nh) :
    ∀ (els : List Element), (∀ el ∈ els, PiecedFrom base el.text) →
    ∀ (chunks : List Chunk) (cur : Str) (he : Bool),
      (∀ c ∈ chunks, PiecedFrom base c.text ∧ c.note_number = some nn) →
      PiecedFrom base cur →
      ∀ c ∈ chunkLargeLoop maxSize nh nn nt pgs chunks cur he els,
        PiecedFrom base c.text ∧ c.note_number = some nn := by
  have hnl : PiecedFrom base ("\n\n".toList) :=
    PiecedFrom.of_all_ws (by decide)
  intro els
  induction els with
  | nil =>
    intro _ chunks cur he hch hcur c hc
    rw [chunkLargeLoop] at hc
    split at hc
    · rcases List.mem_append.mp hc with h | h
      · exact hch c h
      · simp only [List.mem_singleton] at h
        subst h
        exact ⟨hcur.infix_closed (pyStrip_sub cur), rfl⟩
    · exact hch c hc
  | cons el rest ih =>
    intro hels chunks cur he hch hcur c hc
    have hel : PiecedFrom base el.text := hels el (List.mem_cons_self el rest)
    have hrest : ∀ x ∈ rest, PiecedFrom base x.text :=
      fun x hx => hels x (List.mem_cons_of_mem el hx)
    rw [chunkLargeLoop] at hc
    split at hc
    · refine ih hrest _ _ _ ?_ ((hh.append hnl).append hel) c hc
      intro x hx
      rcases List.mem_append.mp hx with h | h
      · exact hch x h
      · simp only [List.mem_singleton] at h
        subst h
        exact ⟨hcur.infix_closed (pyStrip_sub cur), rfl⟩
    · exact ih hrest _ _ _ hch ((hcur.append hnl).append hel) c hc

theorem chunk_large_pieced (maxSize : Nat) (base note_text nh nn nt : Str)
    (pgs : List Int) (hh : PiecedFrom base nh)
    (hnt : PiecedFrom base note_text) :
    ∀ c ∈ chunk_large_note_by_elements maxSize note_text nh nn nt pgs,
      PiecedFrom base c.text ∧ c.note_number = some nn := by
  intro c hc
  simp only [chunk_large_note_by_elements] at hc
  split at hc
  · simp only [List.mem_singleton] at hc
    subst hc
    exact ⟨hh.append hnt, rfl⟩
  · refine chunkLargeLoop_pieced maxSize base nh nn nt pgs hh _ ?_ [] nh
      false (by simp) hh c hc
    intro el hel
    exact hnt.infix_closed (extract_elements_sub note_text (pgs.headD 1) el hel)

theorem chunk_note_subsections_pieced (maxSize : Nat)
    (base text hdr nn sn : Str) (pgs : List Int)
    (hh : PiecedFrom base hdr) (ht : PiecedFrom base text) :
    ∀ c ∈ chunk_note_subsections maxSize text hdr nn sn pgs,
      PiecedFrom base c.text ∧ c.note_number = some nn := by
  intro c hc
  simp only [chunk_note_subsections] at hc
  split at hc
  · rcases List.mem_map.mp hc with ⟨si, _, rfl⟩
    refine ⟨?_, rfl⟩
    show PiecedFrom base (hdr ++ pyStrip (pySlice text si.2.1 si.2.2))
    exact hh.append (ht.infix_closed
      ((pyStrip_sub _).trans (pySlice_sub text si.2.1 si.2.2)))
  · split at hc
    · rcases List.mem_map.mp hc with ⟨pc, hpc, rfl⟩
      refine ⟨?_, rfl⟩
      show PiecedFrom base pc.text
      exact ht.trans (chunk_paragraph_pieced maxSize text (pgs.headD 1) pc hpc).1
    · simp only [List.mem_singleton] at hc
      subst hc
      exact ⟨hh.append ht, rfl⟩

theorem chunk_note_pieced (maxSize : Nat) (S nn nt : Str) (pgs : List Int) :
    ∀ c ∈ chunk_note maxSize S nn nt pgs,
      PiecedFrom (note_header nn nt ++ S) c.text ∧
        c.note_number = some nn := by
  intro c hc
  have hS : PiecedFrom (note_header nn nt ++ S) S :=
    PiecedFrom.of_infix (List.suffix_append _ _).isInfix
  have hclean : PiecedFrom (note_header nn nt ++ S) (pyStrip S) :=
    hS.infix_closed (pyStrip_sub S)
  have hh : PiecedFrom (note_header nn nt ++ S) (note_header nn nt) :=
    PiecedFrom.of_infix (List.prefix_append _ _).isInfix
  simp only [chunk_note] at hc
  split at hc
  · simp only [List.mem_singleton] at hc
    subst hc
    exact ⟨hclean, rfl⟩
  · split at hc
    · rcases List.mem_flatten.mp hc with ⟨l, hl, hcl⟩
      rcases List.mem_map.mp hl with ⟨sn, _, rfl⟩
      have hsub : PiecedFrom (note_header nn nt ++ S)
          (pyStrip (pySlice (pyStrip S) sn.start_pos sn.end_pos)) :=
        hclean.infix_closed
          ((pyStrip_sub _).trans (pySlice_sub _ _ _))
      by_cases hfit : maxSize <
          (note_header nn nt ++
            pyStrip (pySlice (pyStrip S) sn.start_pos sn.end_pos)).length
      · rw [if_pos hfit] at hcl
        exact chunk_note_subsections_pieced maxSize _ _ _ nn sn.sub_note pgs
          hh hsub c hcl
      · rw [if_neg hfit] at hcl
        simp only [List.mem_singleton] at hcl
        subst hcl
        exact ⟨hh.append hsub, rfl⟩
    · exact chunk_large_pieced maxSize _ (pyStrip S) (note_header nn nt)
        nn nt pgs hh hclean c hc

/-- **C5.**  Corrected note confinement: the spec's claim that every chunk
tagged for main note `A` has its text a substring of the document range
`[A.start, A.end)` fails (the chunker prepends a *constructed* header
`f"{note_number} - {note_title}\n\n"`, which is generally not a substring
of the document).  What does hold: every chunk tagged `note_number = n`
arises from a detected boundary `b` with `b.note_number = n`, and its text
is assembled exclusively from contiguous pieces of that note's own range
`[b.start_pos, b.end_pos)` of the document, the constructed header, and
whitespace separators — so no chunk tagged for note `A` contains material
of another main note `B`. -/
theorem claim_C5_note_material_confinement (maxSize : Nat)
    (pages : List (Int × Str)) (c : Chunk) (n : Str)
    (hc : c ∈ chunk_document_note_aware maxSize pages)
    (hn : c.note_number = some n) :
    ∃ b ∈ detect_note_boundaries (buildFullText pages),
      b.note_number = n ∧
      PiecedFrom (note_header b.note_number b.note_title ++
        pySlice (buildFullText pages) b.start_pos b.end_pos) c.text := by
  simp only [chunk_document_note_aware] at hc
  split at hc
  · rcases List.mem_flatten.mp hc with ⟨l, hl, hcl⟩
    rcases List.mem_map.mp hl with ⟨p, _, rfl⟩
    exact absurd hn (by rw [elementChunks_none maxSize p.2 p.1 c hcl]; simp)
  · rcases List.mem_append.mp hc with h | h
    · rcases List.mem_flatten.mp h with ⟨l, hl, hcl⟩
      rcases List.mem_map.mp hl with ⟨b, hb, rfl⟩
      have hcp := chunk_note_pieced maxSize _ b.note_number b.note_title _ c hcl
      refine ⟨b, hb, ?_, hcp.1⟩
      have h2 := hcp.2
      rw [hn] at h2
      exact (Option.some.inj h2).symm
    · rcases List.mem_flatten.mp h with ⟨l, hl, hcl⟩
      rcases List.mem_map.mp hl with ⟨r, _, rfl⟩
      exact absurd hn (by rw [gapChunks_none maxSize _ _ r c hcl]; simp)

/-- Document for the C5 counterexample: one page holding a single large
note (66 characters with the page separator) whose sub-notes force the
header-prepending path. -/
def C5doc : Str :=
  ("NOTE 5 - THINGS\n\n5.1 Alpha\n\nAaa bbb ccc ddd.\n\n5.2 Beta\n\nEee fff.".toList)

def C5pages : List (Int × Str) := [((1 : Int), C5doc)]

/-- **C5 counterexample.**  A chunk tagged `note_number = 'Note 5'` (for
the unique detected boundary, which spans the whole document) whose text
is *not* a substring of that note's document range: the chunk begins with
the constructed header `'Note 5 - THINGS\n\n'`, while the document only
contains the uppercase form `'NOTE 5 - THINGS'`. -/
theorem claim_C5_counterexample :
    ∃ c ∈ chunk_document_note_aware 40 C5pages,
      ∃ b ∈ detect_note_boundaries (buildFullText C5pages),
        c.note_number = some b.note_number ∧
        (∀ b2 ∈ detect_note_boundaries (buildFullText C5pages), b2 = b) ∧
        ¬ List.IsInfix c.text
            (pySlice (buildFullText C5pages) b.start_pos b.end_pos) := by
  decide

/-- Single small-note page for the C5 witness. -/
def W5pages : List (Int × Str) :=
  [((1 : Int), ("NOTE 1 - ASSETS\n\nAll good.".toList))]

/-- The one chunk `chunk_document_note_aware` produces on `W5pages` with
`max_chunk_size = 100` (a complete small note). -/
def W5chunk : Chunk :=
  { text := ("NOTE 1 - ASSETS\n\nAll good.".toList),
    chunk_type := ("note_complete".toList),
    page_numbers := [(1 : Int)],
    char_count := 26,
    is_critical := true,
    note_number := some ("Note 1".toList),
    note_title := some ("ASSETS\n\nAll good".toList),
    content_types := some [("paragraph".toList)],
    has_subjective := true,
    has_objective := false,
    hierarchy_level := 0,
    is_complete_note := true }

/-- Concrete instance of the corrected C5 theorem: the complete-note chunk
for `W5pages` is confined to the material of its own boundary. -/
theorem claim_C5_note_material_confinement_witness :
    ∃ b ∈ detect_note_boundaries (buildFullText W5pages),
      b.note_number = ("Note 1".toList) ∧
      PiecedFrom (note_header b.note_number b.note_title ++
        pySlice (buildFullText W5pages) b.start_pos b.end_pos) W5chunk.text :=
  claim_C5_note_material_confinement 100 W5pages W5chunk ("Note 1".toList)
    (by decide) (by decide)
